import Mathlib

/-!
Verification of the kibbutz configuration aggregator (src/lib/kibbutz.js).

The development shallowly embeds the JavaScript source:
* `Json` models JavaScript values as trees (numbers, strings, booleans,
  `null`, `undefined`, Date instances, functions, plain objects, arrays).
* `merge` / `mergeFields` embed `_merge`, including the runtime `TypeError`
  that `Object.keys(null)` / `null.hasOwnProperty` raise, returned as the
  second component (the first component is the final state of the mutated
  first argument).
* `deepCopy` embeds `_deepCopy`, `assertOptions` embeds `_assertOptions`,
  `assertProvider` embeds `_assertProvider`, `loadM` embeds `_load`, and
  `kibbutzInit` / `kibbutzLoad` / `kibbutzAppendState` embed the `Kibbutz`
  class constructor, `load`, and `append`.
* A second, heap-based embedding (`HVal`, `HNode`, `Store`, `mergeH`)
  models `_merge` with explicit object identity and in-place mutation, in
  order to settle the frame property of the merge.
-/

/-- JavaScript values as trees.  `vdate` and `vfun` are the opaque
date-like and function-like values; `obj` keeps fields in insertion
order, as JavaScript plain objects do. -/
inductive Json where
  | vnum (n : Int)
  | vstr (s : String)
  | vbool (b : Bool)
  | vnull
  | vundefined
  | vdate (t : Int)
  | vfun (id : Nat)
  | obj (fields : List (String × Json))
  | arr (elems : List Json)

/-- `elv` from the elv package: true unless the value is undefined or null. -/
def elv : Json → Bool
  | .vundefined => false
  | .vnull => false
  | _ => true

/-- `typeof v === 'object'` in JavaScript: true for plain objects, arrays,
`null`, and Date instances. -/
def typeofObject : Json → Bool
  | .obj _ => true
  | .arr _ => true
  | .vnull => true
  | .vdate _ => true
  | _ => false

/-- `v instanceof Date`. -/
def isDateJ : Json → Bool
  | .vdate _ => true
  | _ => false

/-- `Array.isArray(v)`. -/
def isArrJ : Json → Bool
  | .arr _ => true
  | _ => false

/-- `_isPojo`: `typeof v === 'object' && !Array.isArray(v) && !(v instanceof Date)`. -/
def isPojo (v : Json) : Bool :=
  typeofObject v && !isArrJ v && !isDateJ v

/-- First-occurrence field lookup, as JavaScript property access on the
field list of an object. -/
def lookupField : List (String × Json) → String → Option Json
  | [], _ => none
  | (k', v') :: rest, k => if k' = k then some v' else lookupField rest k

/-- `hasOwnProperty`. -/
def hasKey (fs : List (String × Json)) (k : String) : Bool :=
  (lookupField fs k).isSome

/-- Replace the value of the first occurrence of a key (in-place update of
an existing property keeps its position). -/
def setField : List (String × Json) → String → Json → List (String × Json)
  | [], _, _ => []
  | (k', v') :: rest, k, v =>
    if k' = k then (k', v) :: rest else (k', v') :: setField rest k v

/-- Property lookup on a `Json` value (objects only). -/
def lookupJ : Json → String → Option Json
  | .obj fs, k => lookupField fs k
  | _, _ => none

/-- `Object.keys` of an array enumerates its indices as decimal strings;
this pairs each element with its index string, starting at `i`. -/
def idxPairs : Nat → List Json → List (String × Json)
  | _, [] => []
  | i, e :: rest => (toString i, e) :: idxPairs (i + 1) rest

mutual

/-- Size measure used for the termination of `merge`. -/
def jsize : Json → Nat
  | .obj fs => 1 + fieldsSize fs
  | .arr es => 1 + elemsSize es
  | _ => 1

def fieldsSize : List (String × Json) → Nat
  | [] => 0
  | (_, v) :: rest => 1 + jsize v + fieldsSize rest

def elemsSize : List Json → Nat
  | [] => 0
  | e :: rest => 1 + jsize e + elemsSize rest

end

theorem fieldsSize_idxPairs (i : Nat) (es : List Json) :
    fieldsSize (idxPairs i es) = elemsSize es := by
  induction es generalizing i with
  | nil => simp [idxPairs, fieldsSize, elemsSize]
  | cons e rest ih => simp [idxPairs, fieldsSize, elemsSize, ih]

theorem jsize_snd_lt {fs : List (String × Json)} {p : String × Json}
    (h : p ∈ fs) : jsize p.2 < jsize (Json.obj fs) := by
  induction fs with
  | nil => cases h
  | cons q rest ih =>
    rcases List.mem_cons.mp h with h' | h'
    · subst h'; simp [jsize, fieldsSize]; omega
    · have := ih h'
      simp [jsize, fieldsSize] at this ⊢
      omega

theorem jsize_mem_lt {es : List Json} {e : Json} (h : e ∈ es) :
    jsize e < jsize (Json.arr es) := by
  induction es with
  | nil => cases h
  | cons q rest ih =>
    rcases List.mem_cons.mp h with h' | h'
    · subst h'; simp [jsize, elemsSize]; omega
    · have := ih h'
      simp [jsize, elemsSize] at this ⊢
      omega

/-- Error message for `Object.keys(null)` / `null.hasOwnProperty(...)`:
the `TypeError` raised at runtime when `_merge` recurses into `null`. -/
def msgNullObject : String := "TypeError: null is not an object"

mutual

/-- Embedding of `_merge(a, b)`.  Returns the final state of `a` (which
the JavaScript mutates in place) together with the runtime error raised,
if any; on an error the first component reflects the writes made before
the exception propagated. -/
def merge : Json → Json → Json × Option String
  | a, b =>
    if !typeofObject a || isDateJ a || !typeofObject b || isDateJ b then
      (a, none)
    else
      match a, b with
      | .arr ea, .arr eb => (.arr (ea ++ eb), none)
      | .arr ea, _ => (.arr ea, none)
      | a', .vnull => (a', some msgNullObject)
      | .obj afs, .obj bfs =>
        let r := mergeFields afs bfs
        (.obj r.1, r.2)
      | .obj afs, .arr bes =>
        let r := mergeFields afs (idxPairs 0 bes)
        (.obj r.1, r.2)
      | .vnull, .obj bfs =>
        if bfs.isEmpty then (.vnull, none) else (.vnull, some msgNullObject)
      | .vnull, .arr bes =>
        if bes.isEmpty then (.vnull, none) else (.vnull, some msgNullObject)
      | a', _ => (a', none)
termination_by a b => 2 * jsize b
decreasing_by
  all_goals simp_wf
  all_goals simp only [jsize, fieldsSize, fieldsSize_idxPairs]
  all_goals omega

/-- The key loop of `_merge` over `Object.keys(b)`: `afs` is the current
field list of `a`, `pairs` the remaining source key/value pairs. -/
def mergeFields : List (String × Json) → List (String × Json) →
    List (String × Json) × Option String
  | afs, [] => (afs, none)
  | afs, (k, bval) :: rest =>
    let isBObj := typeofObject bval && !isDateJ bval
    match lookupField afs k with
    | some aval =>
      if !typeofObject aval || isDateJ aval || !isBObj then
        mergeFields afs rest
      else
        let r := merge aval bval
        let afs' := setField afs k r.1
        match r.2 with
        | some e => (afs', some e)
        | none => mergeFields afs' rest
    | none =>
      if !isBObj then
        mergeFields (afs ++ [(k, bval)]) rest
      else
        let empty : Json := if isArrJ bval then .arr [] else .obj []
        let r := merge empty bval
        let afs' := afs ++ [(k, r.1)]
        match r.2 with
        | some e => (afs', some e)
        | none => mergeFields afs' rest
termination_by afs pairs => 2 * fieldsSize pairs + 1
decreasing_by
  all_goals simp_wf
  all_goals simp only [jsize, fieldsSize, fieldsSize_idxPairs]
  all_goals omega

end

/-- Embedding of `_deepCopy`. -/
def deepCopy : Json → Json
  | .vundefined => .obj []
  | .vnull => .obj []
  | .obj fs => .obj (fs.attach.map fun p =>
      (p.1.1, if typeofObject p.1.2 then deepCopy p.1.2 else p.1.2))
  | .arr es => .arr (es.attach.map fun e =>
      if typeofObject e.1 then deepCopy e.1 else e.1)
  | x => x
termination_by v => jsize v
decreasing_by
  · exact jsize_snd_lt p.2
  · exact jsize_mem_lt e.2

/-! ## Constructor-side validation (`_assertOptions`, `Kibbutz` constructor) -/

def msgOptionsObj : String := "Invalid options: must be an object"
def msgOptionsValueObj : String := "Invalid options: value must be an object"
def msgProviderLoad : String := "Providers must be an object with a \x22load\x22 method"
def msgProviderLoadArity : String :=
  "Provider load methods must take a single callback arg"

/-- Embedding of `_assertOptions`: returns `.error` where the JavaScript
throws a `TypeError`. -/
def assertOptions (options : Json) : Except String Unit :=
  if !elv options then .ok ()
  else if !isPojo options then .error msgOptionsObj
  else
    match options with
    | .obj fs =>
      match lookupField fs "value" with
      | some v =>
        if !typeofObject v then .error msgOptionsValueObj
        else match v with
          | .vnull => .error msgOptionsValueObj
          | _ => .ok ()
      | none => .ok ()
    | _ => .ok ()

/-- `options.value`, reading `undefined` when absent or when `options` is
not an object. -/
def optionsValue : Json → Json
  | .obj fs => (lookupField fs "value").getD .vundefined
  | _ => .vundefined

/-- Embedding of the `Kibbutz` constructor: validates the options and
produces the initial published aggregate. -/
def kibbutzInit (options : Json) : Except String Json :=
  match assertOptions options with
  | .error m => .error m
  | .ok _ =>
    .ok (if elv options && elv (optionsValue options)
         then deepCopy (optionsValue options)
         else .obj [])

/-! ## Provider pipeline (`_assertProvider`, `_load`, `Kibbutz.load`) -/

/-- A provider list element as `_load` sees it: absent (`null`/`undefined`),
an object without a callable `load`, or an object whose `load` function has
the given arity and, when invoked, calls back with either an error (payload
modelled as a `Nat`) or a configuration fragment. -/
inductive ProviderVal where
  | absent
  | noLoad
  | withLoad (arity : Nat) (result : Sum Nat Json)

/-- Embedding of `_assertProvider`. -/
def assertProvider : ProviderVal → Except String (Sum Nat Json)
  | .absent => .error msgProviderLoad
  | .noLoad => .error msgProviderLoad
  | .withLoad arity r =>
    if arity ≠ 1 then .error msgProviderLoadArity else .ok r

/-- Observable events emitted on the store's `EventEmitter`. -/
inductive Ev where
  | config (fragment : Json)
  | done (value : Json)

/-- How a `load` call resolves: a synchronously propagating exception
(`thrown`), the completion callback invoked with a provider error
(`cbErr`), or the completion callback invoked with the final value
(`cbOk`). -/
inductive LoadResult where
  | thrown (msg : String)
  | cbErr (e : Nat)
  | cbOk (v : Json)

/-- Embedding of `_load`: runs the providers serially from the front of
the list, emitting a `config` event for each successful fragment before
merging it.  A validation failure or a `TypeError` raised by `_merge`
propagates as `thrown`; a provider error stops the pipeline with
`cbErr`. -/
def loadM : Json → List ProviderVal → List Ev × LoadResult
  | v, [] => ([], .cbOk v)
  | v, p :: ps =>
    match assertProvider p with
    | .error m => ([], .thrown m)
    | .ok (.inl e) => ([], .cbErr e)
    | .ok (.inr frag) =>
      let r := merge v frag
      match r.2 with
      | some m => ([.config frag], .thrown m)
      | none =>
        let rest := loadM r.1 ps
        (.config frag :: rest.1, rest.2)

/-- The observable result of one `Kibbutz.prototype.load` call: the events
emitted, the published value afterwards, and how the call resolved. -/
structure LoadOut where
  events : List Ev
  newState : Json
  outcome : LoadResult

/-- Embedding of `Kibbutz.prototype.load` on a store whose published value
is `v₀`: works on a deep copy, and only on overall success commits the
result, emits `done`, and passes the value to the callback. -/
def kibbutzLoad (v₀ : Json) (ps : List ProviderVal) : LoadOut :=
  let r := loadM (deepCopy v₀) ps
  match r.2 with
  | .cbOk v => ⟨r.1 ++ [.done v], v, .cbOk v⟩
  | .cbErr e => ⟨r.1, v₀, .cbErr e⟩
  | .thrown m => ⟨r.1, v₀, .thrown m⟩

/-- The merge loop of `Kibbutz.prototype.append`: merges the supplied
values in order into the working copy, stopping if `_merge` raises. -/
def appendRun : Json → List Json → Json × Option String
  | v, [] => (v, none)
  | v, x :: xs =>
    let r := merge v x
    match r.2 with
    | some m => (r.1, some m)
    | none => appendRun r.1 xs

/-- The published value after `Kibbutz.prototype.append`: unchanged if no
arguments were supplied (the call throws) or if a merge raised before the
commit; otherwise the merged copy. -/
def kibbutzAppendState (v₀ : Json) (vals : List Json) : Json :=
  if vals.isEmpty then v₀
  else
    let r := appendRun (deepCopy v₀) vals
    match r.2 with
    | some _ => v₀
    | none => r.1

/-! ## Lemmas about field lookup and the merge loop -/

theorem lookupField_setField_ne {fs : List (String × Json)} {k k' : String}
    {v : Json} (h : k' ≠ k) :
    lookupField (setField fs k' v) k = lookupField fs k := by
  induction fs with
  | nil => simp [setField, lookupField]
  | cons q rest ih =>
    obtain ⟨a, b⟩ := q
    by_cases ha : a = k'
    · subst ha
      simp [setField, lookupField, h]
    · simp [setField, lookupField, ha]
      by_cases hk : a = k
      · simp [hk]
      · simp [hk, ih]

theorem lookupField_setField_same {fs : List (String × Json)} {k : String}
    {v w : Json} (h : lookupField fs k = some w) :
    lookupField (setField fs k v) k = some v := by
  induction fs with
  | nil => simp [lookupField] at h
  | cons q rest ih =>
    obtain ⟨a, b⟩ := q
    by_cases ha : a = k
    · subst ha
      simp [setField, lookupField]
    · simp [lookupField, ha] at h
      simp [setField, lookupField, ha, ih h]

theorem lookupField_append_some {fs l : List (String × Json)} {k : String}
    {v : Json} (h : lookupField fs k = some v) :
    lookupField (fs ++ l) k = some v := by
  induction fs with
  | nil => simp [lookupField] at h
  | cons q rest ih =>
    obtain ⟨a, b⟩ := q
    by_cases ha : a = k
    · subst ha
      simpa [lookupField] using h
    · simp [lookupField, ha] at h ⊢
      exact ih h

theorem lookupField_append_single_ne {fs : List (String × Json)}
    {k k' : String} {w : Json} (h : k' ≠ k) :
    lookupField (fs ++ [(k', w)]) k = lookupField fs k := by
  induction fs with
  | nil => simp [lookupField, h]
  | cons q rest ih =>
    obtain ⟨a, b⟩ := q
    by_cases ha : a = k
    · simp [lookupField, ha]
    · simp [lookupField, ha, ih]

theorem merge_obj_obj (a b : List (String × Json)) :
    merge (.obj a) (.obj b) = (.obj (mergeFields a b).1, (mergeFields a b).2) := by
  simp [merge, typeofObject, isDateJ]

theorem merge_arr_arr (ea eb : List Json) :
    merge (.arr ea) (.arr eb) = (.arr (ea ++ eb), none) := by
  simp [merge, typeofObject, isDateJ]

theorem merge_null_fst (b : Json) : (merge .vnull b).1 = .vnull := by
  cases b <;> simp [merge, typeofObject, isDateJ]
  · split <;> rfl
  · split <;> rfl

/-- The key loop never touches a key that does not occur in the source. -/
theorem mf_untouched {pairs : List (String × Json)} {k : String} :
    ∀ {afs : List (String × Json)}, k ∉ pairs.map Prod.fst →
      lookupField (mergeFields afs pairs).1 k = lookupField afs k := by
  induction pairs with
  | nil => intro afs _; simp [mergeFields]
  | cons q rest ih =>
    intro afs h
    obtain ⟨k', bval⟩ := q
    simp only [List.map_cons, List.mem_cons] at h
    push_neg at h
    obtain ⟨hk, hrest⟩ := h
    have hk' : k' ≠ k := fun e => hk e.symm
    rw [mergeFields]
    cases hl : lookupField afs k' with
    | some aval =>
      simp only [hl]
      split
      · exact ih hrest
      · cases he : (merge aval bval).2 with
        | some e =>
          simp only [he]
          exact lookupField_setField_ne hk'
        | none =>
          simp only [he]
          rw [ih hrest]
          exact lookupField_setField_ne hk'
    | none =>
      simp only [hl]
      split
      · rw [ih hrest]
        exact lookupField_append_single_ne hk'
      · cases he : (merge (if isArrJ bval then .arr [] else .obj []) bval).2 with
        | some e =>
          simp only [he]
          exact lookupField_append_single_ne hk'
        | none =>
          simp only [he]
          rw [ih hrest]
          exact lookupField_append_single_ne hk'

/-- A key whose current value is not a container (an opaque scalar or a
date) is never written by the key loop, whatever the source holds. -/
theorem mf_preserve_opaque {pairs : List (String × Json)} {k : String}
    {v : Json} (hv : !typeofObject v || isDateJ v) :
    ∀ {afs : List (String × Json)}, lookupField afs k = some v →
      lookupField (mergeFields afs pairs).1 k = some v := by
  induction pairs with
  | nil => intro afs h; simpa [mergeFields]
  | cons q rest ih =>
    intro afs h
    obtain ⟨k', bval⟩ := q
    rw [mergeFields]
    by_cases hk : k' = k
    · subst hk
      simp only [h]
      have hcond : (!typeofObject v || isDateJ v ||
          !(typeofObject bval && !isDateJ bval)) = true := by
        rcases Bool.or_eq_true_iff.mp hv with h' | h' <;> simp [h']
      rw [if_pos hcond]
      exact ih h
    · have hk' : k' ≠ k := hk
      cases hl : lookupField afs k' with
      | some aval =>
        simp only [hl]
        split
        · exact ih h
        · cases he : (merge aval bval).2 with
          | some e =>
            simp only [he]
            rw [lookupField_setField_ne hk']
            exact h
          | none =>
            simp only [he]
            exact ih (by rw [lookupField_setField_ne hk']; exact h)
      | none =>
        simp only [hl]
        split
        · exact ih (lookupField_append_some h)
        · cases he : (merge (if isArrJ bval then .arr [] else .obj []) bval).2 with
          | some e =>
            simp only [he]
            exact lookupField_append_some h
          | none =>
            simp only [he]
            exact ih (lookupField_append_some h)

/-- A key whose current value is `null` keeps the value `null` through the
key loop: when the source value is a container the recursion into `null`
leaves it in place (and may raise), otherwise the loop skips the key. -/
theorem mf_preserve_null {pairs : List (String × Json)} {k : String} :
    ∀ {afs : List (String × Json)}, lookupField afs k = some .vnull →
      lookupField (mergeFields afs pairs).1 k = some .vnull := by
  induction pairs with
  | nil => intro afs h; simpa [mergeFields]
  | cons q rest ih =>
    intro afs h
    obtain ⟨k', bval⟩ := q
    rw [mergeFields]
    by_cases hk : k' = k
    · subst hk
      simp only [h]
      split
      · exact ih h
      · have hfst : (merge .vnull bval).1 = .vnull := merge_null_fst bval
        cases he : (merge .vnull bval).2 with
        | some e =>
          simp only [he, hfst]
          exact lookupField_setField_same h
        | none =>
          simp only [he, hfst]
          exact ih (lookupField_setField_same h)
    · have hk' : k' ≠ k := hk
      cases hl : lookupField afs k' with
      | some aval =>
        simp only [hl]
        split
        · exact ih h
        · cases he : (merge aval bval).2 with
          | some e =>
            simp only [he]
            rw [lookupField_setField_ne hk']
            exact h
          | none =>
            simp only [he]
            exact ih (by rw [lookupField_setField_ne hk']; exact h)
      | none =>
        simp only [hl]
        split
        · exact ih (lookupField_append_some h)
        · cases he : (merge (if isArrJ bval then .arr [] else .obj []) bval).2 with
          | some e =>
            simp only [he]
            exact lookupField_append_some h
          | none =>
            simp only [he]
            exact ih (lookupField_append_some h)

/-- When both sides hold containers at a key (and the source keys are
unique and no merge error occurs), the key loop replaces the target value
with the recursive merge of the two containers. -/
theorem mf_container_merge {pairs : List (String × Json)} {k : String}
    {av bv : Json} (hav : (typeofObject av && !isDateJ av) = true)
    (hbv : (typeofObject bv && !isDateJ bv) = true) :
    ∀ {afs : List (String × Json)}, (pairs.map Prod.fst).Nodup →
      lookupField afs k = some av → lookupField pairs k = some bv →
      (mergeFields afs pairs).2 = none →
      lookupField (mergeFields afs pairs).1 k = some (merge av bv).1 := by
  induction pairs with
  | nil => intro afs _ _ hb _; simp [lookupField] at hb
  | cons q rest ih =>
    intro afs hnod ha hb hres
    obtain ⟨k', bval⟩ := q
    simp only [List.map_cons, List.nodup_cons] at hnod
    obtain ⟨hknotin, hnod'⟩ := hnod
    rw [mergeFields] at hres ⊢
    by_cases hk : k' = k
    · subst hk
      have hbb : bval = bv := by simpa [lookupField] using hb
      rw [hbb] at hres ⊢
      simp only [ha] at hres ⊢
      have hcond : (!typeofObject av || isDateJ av ||
          !(typeofObject bv && !isDateJ bv)) = false := by
        simp only [Bool.and_eq_true, Bool.not_eq_true'] at hav hbv
        simp [hav.1, hav.2, hbv.1, hbv.2]
      rw [if_neg (by rw [hcond]; simp)] at hres ⊢
      cases he : (merge av bv).2 with
      | some e => simp [he] at hres
      | none =>
        simp only [he] at hres ⊢
        rw [mf_untouched hknotin]
        exact lookupField_setField_same ha
    · have hk' : k' ≠ k := hk
      simp only [lookupField, if_neg hk'] at hb
      cases hl : lookupField afs k' with
      | some aval =>
        simp only [hl] at hres ⊢
        split at hres
        · next hcond =>
            rw [if_pos hcond]
            exact ih hnod' ha hb hres
        · next hcond =>
            rw [if_neg hcond]
            cases he : (merge aval bval).2 with
            | some e => simp [he] at hres
            | none =>
              simp only [he] at hres ⊢
              exact ih hnod'
                (by rw [lookupField_setField_ne hk']; exact ha) hb hres
      | none =>
        simp only [hl] at hres ⊢
        split at hres
        · next hcond =>
            rw [if_pos hcond]
            exact ih hnod' (lookupField_append_some ha) hb hres
        · next hcond =>
            rw [if_neg hcond]
            cases he : (merge (if isArrJ bval then .arr [] else .obj []) bval).2 with
            | some e => simp [he] at hres
            | none =>
              simp only [he] at hres ⊢
              exact ih hnod' (lookupField_append_some ha) hb hres

/-! ## Lemmas about the provider pipeline -/

/-- Is the value a plain object (mapping)? -/
def isObjJ : Json → Bool
  | .obj _ => true
  | _ => false

theorem merge_obj_fst {a : Json} (h : isObjJ a = true) (b : Json) :
    isObjJ (merge a b).1 = true := by
  cases a <;> simp [isObjJ] at h ⊢
  cases b <;> simp [merge, typeofObject, isDateJ, isObjJ]

theorem deepCopy_obj (fs : List (String × Json)) :
    deepCopy (.obj fs) = .obj (fs.attach.map fun p =>
      (p.1.1, if typeofObject p.1.2 then deepCopy p.1.2 else p.1.2)) := by
  simp [deepCopy]

theorem deepCopy_obj_isObj {v : Json} (h : isObjJ v = true) :
    isObjJ (deepCopy v) = true := by
  cases v <;> simp [isObjJ] at h ⊢
  simp [deepCopy, isObjJ]

/-- The fragments of the valid, successful providers of a list, in list
order. -/
def fragmentsOf : List ProviderVal → List Json :=
  List.filterMap fun p =>
    match p with
    | .withLoad 1 (.inr f) => some f
    | _ => none

/-- Splitting the provider list: once a prefix has run successfully, the
pipeline continues with the remaining providers from the accumulated
value. -/
theorem loadM_append {pre : List ProviderVal} :
    ∀ {v w : Json} {evs : List Ev}, loadM v pre = (evs, .cbOk w) →
      ∀ qs, loadM v (pre ++ qs) = (evs ++ (loadM w qs).1, (loadM w qs).2) := by
  induction pre with
  | nil =>
    intro v w evs h qs
    rw [loadM] at h
    obtain ⟨rfl, hw⟩ : ([] : List Ev) = evs ∧ LoadResult.cbOk v = .cbOk w := by
      constructor <;> [exact congrArg Prod.fst h; exact congrArg Prod.snd h]
    obtain rfl : v = w := by injection hw
    simp
  | cons p ps ih =>
    intro v w evs h qs
    rw [loadM] at h
    simp only [List.cons_append]
    rw [loadM]
    cases ha : assertProvider p with
    | error m =>
      simp [ha] at h
    | ok r =>
      cases r with
      | inl e =>
        simp [ha] at h
      | inr frag =>
        simp only [ha] at h ⊢
        cases hm : (merge v frag).2 with
        | some m =>
          simp [hm] at h
        | none =>
          simp only [hm] at h ⊢
          cases hrest : loadM (merge v frag).1 ps with
          | mk evs' res' =>
            simp only [hrest] at h
            obtain ⟨he, hr⟩ : Ev.config frag :: evs' = evs ∧ res' = .cbOk w := by
              constructor
              · exact congrArg Prod.fst h
              · exact congrArg Prod.snd h
            subst he
            have := ih (v := (merge v frag).1) (by rw [hrest, hr]) qs
            rw [this]
            simp

/-- `_load` itself only emits `config` events (the `done` event is emitted
by `Kibbutz.prototype.load` on success). -/
theorem loadM_events_config {ps : List ProviderVal} :
    ∀ {v : Json} {ev : Ev}, ev ∈ (loadM v ps).1 → ∃ f, ev = .config f := by
  induction ps with
  | nil => intro v ev h; simp [loadM] at h
  | cons p rest ih =>
    intro v ev h
    rw [loadM] at h
    cases ha : assertProvider p with
    | error m => simp [ha] at h
    | ok r =>
      cases r with
      | inl e => simp [ha] at h
      | inr frag =>
        simp only [ha] at h
        cases hm : (merge v frag).2 with
        | some m =>
          simp [hm] at h
          exact ⟨frag, h⟩
        | none =>
          simp only [hm, List.mem_cons] at h
          rcases h with h | h
          · exact ⟨frag, h⟩
          · exact ih h

/-- If the pipeline completes successfully then every provider was valid
and successful, the emitted events are exactly the fragments in provider
order, and the final value is the left fold of the merges. -/
theorem loadM_ok {ps : List ProviderVal} :
    ∀ {v w : Json}, (loadM v ps).2 = .cbOk w →
      (loadM v ps).1 = (fragmentsOf ps).map Ev.config ∧
      ∀ p ∈ ps, ∃ f, p = .withLoad 1 (.inr f) := by
  induction ps with
  | nil =>
    intro v w _
    simp [loadM, fragmentsOf]
  | cons p rest ih =>
    intro v w h
    rw [loadM] at h ⊢
    cases ha : assertProvider p with
    | error m => simp [ha] at h
    | ok r =>
      cases r with
      | inl e => simp [ha] at h
      | inr frag =>
        simp only [ha] at h ⊢
        cases hm : (merge v frag).2 with
        | some m => simp [hm] at h
        | none =>
          simp only [hm] at h ⊢
          obtain ⟨h1, h2⟩ := ih h
          have hp : p = .withLoad 1 (.inr frag) := by
            cases p with
            | absent => simp [assertProvider] at ha
            | noLoad => simp [assertProvider] at ha
            | withLoad n r' =>
              by_cases hn : n = 1
              · subst hn
                simp [assertProvider] at ha
                rw [ha]
              · simp [assertProvider, hn] at ha
          constructor
          · rw [h1, hp]
            simp [fragmentsOf]
          · intro q hq
            rcases List.mem_cons.mp hq with h' | h'
            · exact ⟨frag, by rw [h', hp]⟩
            · exact h2 q h'

/-- A successful pipeline run starting from a mapping ends in a mapping. -/
theorem loadM_obj {ps : List ProviderVal} :
    ∀ {v w : Json}, isObjJ v = true → (loadM v ps).2 = .cbOk w →
      isObjJ w = true := by
  induction ps with
  | nil =>
    intro v w hv h
    rw [loadM] at h
    obtain rfl : v = w := by injection h
    exact hv
  | cons p rest ih =>
    intro v w hv h
    rw [loadM] at h
    cases ha : assertProvider p with
    | error m => simp [ha] at h
    | ok r =>
      cases r with
      | inl e => simp [ha] at h
      | inr frag =>
        simp only [ha] at h
        cases hm : (merge v frag).2 with
        | some m => simp [hm] at h
        | none =>
          simp only [hm] at h
          exact ih (merge_obj_fst hv frag) h

/-! ## Claims about the merge algorithm and the cloner -/

/-- The claim's class of opaque scalar values at an existing key: numbers,
strings, booleans, function-like, and date-like values. -/
def isOpaqueNonNull : Json → Bool
  | .vnum _ => true
  | .vstr _ => true
  | .vbool _ => true
  | .vfun _ => true
  | .vdate _ => true
  | _ => false

/-- C1: merge is first-write-wins for opaque-scalar keys: if mapping `A`
holds an opaque scalar `v` (number, string, boolean, function-like, or
date-like) at key `k`, merging any mapping `B` that also contains `k`
leaves `A[k] = v` unchanged, regardless of `B[k]`'s value or type. -/
theorem merge_first_write_wins_opaque
    (fsA fsB : List (String × Json)) (k : String) (v : Json)
    (hA : lookupField fsA k = some v) (hv : isOpaqueNonNull v = true)
    (hB : hasKey fsB k = true) :
    lookupJ (merge (.obj fsA) (.obj fsB)).1 k = some v := by
  rw [merge_obj_obj]
  have hv' : (!typeofObject v || isDateJ v) = true := by
    cases v <;> simp [isOpaqueNonNull] at hv <;>
      simp [typeofObject, isDateJ]
  exact mf_preserve_opaque hv' hA

/-- Witness for C1: a number-valued key survives a merge with an
object-valued source at the same key. -/
theorem merge_first_write_wins_opaque_witness :
    lookupField [("k", Json.vnum 7)] "k" = some (.vnum 7) ∧
    isOpaqueNonNull (.vnum 7) = true ∧
    hasKey [("k", Json.obj [("x", Json.vstr "y")])] "k" = true ∧
    lookupJ (merge (.obj [("k", .vnum 7)])
      (.obj [("k", .obj [("x", .vstr "y")])])).1 "k" = some (.vnum 7) := by
  refine ⟨by simp [lookupField], by simp [isOpaqueNonNull],
    by simp [hasKey, lookupField], ?_⟩
  exact merge_first_write_wins_opaque _ _ _ _ (by simp [lookupField])
    (by simp [isOpaqueNonNull]) (by simp [hasKey, lookupField])

/-- Counterexample to C2 as stated: merging `{k: null}` into a target
lacking `k` does not assign `null` at `k` — it creates an empty mapping at
`k` and raises a `TypeError` (from `Object.keys(null)`). -/
theorem merge_null_source_counterexample :
    merge (.obj []) (.obj [("k", .vnull)])
        = (.obj [("k", .obj [])], some msgNullObject) ∧
    lookupJ (merge (.obj []) (.obj [("k", .vnull)])).1 "k" ≠ some .vnull := by
  have h : merge (.obj []) (.obj [("k", .vnull)])
      = (.obj [("k", .obj [])], some msgNullObject) := by
    simp [merge, mergeFields, lookupField, typeofObject, isDateJ, isArrJ]
  refine ⟨h, ?_⟩
  rw [h]
  simp [lookupJ, lookupField]

/-- C2 (amended): `_merge` treats `null` like a mapping, not an opaque
scalar.  Merging a source with `source[k] = null` into a target lacking
`k` stores a fresh empty mapping at `k` and raises a `TypeError` while
recursing into `null` (so the merge fails rather than assigning `null`);
a target value `null` at `k` is itself never replaced by any merge. -/
theorem merge_null_amended :
    (∀ (fsA : List (String × Json)) (k : String), hasKey fsA k = false →
      merge (.obj fsA) (.obj [(k, .vnull)])
        = (.obj (fsA ++ [(k, .obj [])]), some msgNullObject)) ∧
    (∀ (fsA fsB : List (String × Json)) (k : String),
      lookupField fsA k = some .vnull →
      lookupJ (merge (.obj fsA) (.obj fsB)).1 k = some .vnull) := by
  constructor
  · intro fsA k hk
    have hk' : lookupField fsA k = none := by
      have := hk
      unfold hasKey at this
      cases hl : lookupField fsA k with
      | none => rfl
      | some w => rw [hl] at this; simp at this
    rw [merge_obj_obj, mergeFields]
    simp only [hk']
    simp [merge, mergeFields, typeofObject, isDateJ, isArrJ]
  · intro fsA fsB k h
    rw [merge_obj_obj]
    exact mf_preserve_null h

/-- Witness for the amended C2. -/
theorem merge_null_amended_witness :
    hasKey [("a", Json.vnum 1)] "k" = false ∧
    merge (.obj [("a", .vnum 1)]) (.obj [("k", .vnull)])
      = (.obj [("a", .vnum 1), ("k", .obj [])], some msgNullObject) ∧
    lookupField [("k", Json.vnull)] "k" = some .vnull ∧
    lookupJ (merge (.obj [("k", .vnull)]) (.obj [("k", .vstr "s")])).1 "k"
      = some .vnull := by
  refine ⟨by simp [hasKey, lookupField], ?_, by simp [lookupField], ?_⟩
  · exact merge_null_amended.1 [("a", .vnum 1)] "k" (by simp [hasKey, lookupField])
  · exact merge_null_amended.2 [("k", .vnull)] [("k", .vstr "s")] "k"
      (by simp [lookupField])

/-- C3: compatible containers are deep-extended, not replaced.  Shared
sequence-valued keys are concatenated in order and shared mapping-valued
keys are merged recursively; in particular the two example merges of the
specification evaluate exactly as stated. -/
theorem merge_deep_extends_containers :
    (merge (.obj [("foo", .arr [.vstr "a", .vstr "b"])])
        (.obj [("foo", .arr [.vstr "c"])])
      = (.obj [("foo", .arr [.vstr "a", .vstr "b", .vstr "c"])], none)) ∧
    (merge (.obj [("foo", .obj [("bar", .vstr "baz")])])
        (.obj [("foo", .obj [("qux", .vstr "quux")])])
      = (.obj [("foo", .obj [("bar", .vstr "baz"), ("qux", .vstr "quux")])],
          none)) ∧
    (∀ (fsA fsB : List (String × Json)) (k : String) (ea eb : List Json),
      (fsB.map Prod.fst).Nodup →
      lookupField fsA k = some (.arr ea) →
      lookupField fsB k = some (.arr eb) →
      (merge (.obj fsA) (.obj fsB)).2 = none →
      lookupJ (merge (.obj fsA) (.obj fsB)).1 k = some (.arr (ea ++ eb))) ∧
    (∀ (fsA fsB fa fb : List (String × Json)) (k : String),
      (fsB.map Prod.fst).Nodup →
      lookupField fsA k = some (.obj fa) →
      lookupField fsB k = some (.obj fb) →
      (merge (.obj fsA) (.obj fsB)).2 = none →
      lookupJ (merge (.obj fsA) (.obj fsB)).1 k
        = some (.obj (mergeFields fa fb).1)) := by
  refine ⟨?_, ?_, ?_, ?_⟩
  · simp [merge, mergeFields, lookupField, typeofObject, isDateJ, isArrJ,
      setField]
  · simp [merge, mergeFields, lookupField, typeofObject, isDateJ, isArrJ,
      setField]
  · intro fsA fsB k ea eb hnod ha hb hres
    rw [merge_obj_obj] at hres ⊢
    have := @mf_container_merge fsB k (.arr ea) (.arr eb)
      (by simp [typeofObject, isDateJ]) (by simp [typeofObject, isDateJ])
      fsA hnod ha hb hres
    rw [merge_arr_arr] at this
    simpa [lookupJ] using this
  · intro fsA fsB fa fb k hnod ha hb hres
    rw [merge_obj_obj] at hres ⊢
    have := @mf_container_merge fsB k (.obj fa) (.obj fb)
      (by simp [typeofObject, isDateJ]) (by simp [typeofObject, isDateJ])
      fsA hnod ha hb hres
    rw [merge_obj_obj] at this
    simpa [lookupJ] using this

/-- Witness for C3: the general container clauses applied at the
specification's own examples. -/
theorem merge_deep_extends_containers_witness :
    ((([("foo", Json.arr [.vstr "c"])] : List (String × Json)).map
        Prod.fst).Nodup ∧
      lookupField [("foo", Json.arr [.vstr "a", .vstr "b"])] "foo"
        = some (.arr [.vstr "a", .vstr "b"]) ∧
      (merge (.obj [("foo", .arr [.vstr "a", .vstr "b"])])
        (.obj [("foo", .arr [.vstr "c"])])).2 = none) ∧
    lookupJ (merge (.obj [("foo", .arr [.vstr "a", .vstr "b"])])
        (.obj [("foo", .arr [.vstr "c"])])).1 "foo"
      = some (.arr ([.vstr "a", .vstr "b"] ++ [.vstr "c"])) := by
  refine ⟨⟨by simp, by simp [lookupField], ?_⟩, ?_⟩
  · simp [merge, mergeFields, lookupField, typeofObject, isDateJ, isArrJ,
      setField]
  · exact merge_deep_extends_containers.2.2.1 _ _ "foo" _ _ (by simp)
      (by simp [lookupField]) (by simp [lookupField])
      (by simp [merge, mergeFields, lookupField, typeofObject, isDateJ,
        isArrJ, setField])

/-- Counterexample to C4 as stated: `_deepCopy` does not return `null`
as-is — it returns a fresh empty mapping, both at top level and for
nested `null` values. -/
theorem deepCopy_null_counterexample :
    deepCopy .vnull = .obj [] ∧ Json.obj [] ≠ .vnull ∧
    deepCopy (.obj [("k", .vnull)]) = .obj [("k", .obj [])] := by
  refine ⟨by simp [deepCopy], by simp, ?_⟩
  simp [deepCopy, typeofObject]

/-- C4 (amended): clone of `undefined` or `null` is a fresh empty mapping;
clone of a non-null opaque scalar (number, string, boolean, date-like,
function-like) is the value itself; clone of a mapping keeps the keys and
clones each value just as the source does (values of object type,
including nested `null` — which becomes an empty mapping — and nested
containers, are cloned recursively, all other values are passed through);
clone is total, so it never fails on well-formed input. -/
theorem deepCopy_amended :
    deepCopy .vundefined = .obj [] ∧
    deepCopy .vnull = .obj [] ∧
    (∀ v, isOpaqueNonNull v = true → deepCopy v = v) ∧
    (∀ fs : List (String × Json), deepCopy (.obj fs)
      = .obj (fs.map fun p =>
          (p.1, if typeofObject p.2 then deepCopy p.2 else p.2))) ∧
    (∀ (fs : List (String × Json)) (k : String),
      lookupField fs k = some .vnull →
      lookupJ (deepCopy (.obj fs)) k = some (.obj [])) := by
  have hobj : ∀ fs : List (String × Json), deepCopy (.obj fs)
      = .obj (fs.map fun p =>
          (p.1, if typeofObject p.2 then deepCopy p.2 else p.2)) := by
    intro fs
    rw [deepCopy_obj]
    congr 1
    rw [List.map_attach]
    simp
  refine ⟨by simp [deepCopy], by simp [deepCopy], ?_, hobj, ?_⟩
  · intro v hv
    cases v <;> simp [isOpaqueNonNull] at hv <;> simp [deepCopy]
  · intro fs k h
    rw [hobj]
    simp only [lookupJ]
    induction fs with
    | nil => simp [lookupField] at h
    | cons q rest ih =>
      obtain ⟨a, b⟩ := q
      by_cases ha : a = k
      · subst ha
        simp [lookupField] at h ⊢
        rw [h]
        simp [typeofObject, deepCopy]
      · simp [lookupField, ha] at h ⊢
        exact ih h

/-- Witness for the amended C4. -/
theorem deepCopy_amended_witness :
    isOpaqueNonNull (.vdate 42) = true ∧
    deepCopy (.vdate 42) = .vdate 42 ∧
    lookupField [("k", Json.vnull)] "k" = some .vnull ∧
    lookupJ (deepCopy (.obj [("k", .vnull)])) "k" = some (.obj []) := by
  refine ⟨by simp [isOpaqueNonNull], ?_, by simp [lookupField], ?_⟩
  · exact deepCopy_amended.2.2.1 _ (by simp [isOpaqueNonNull])
  · exact deepCopy_amended.2.2.2.2 [("k", .vnull)] "k" (by simp [lookupField])

/-- Counterexample to C6 as stated: an array (and likewise a date-like
value) in the `value` field passes `_assertOptions` without raising —
only `typeof value !== 'object' || value === null` is checked. -/
theorem assertOptions_counterexample :
    assertOptions (.obj [("value", .arr [])]) = .ok () ∧
    assertOptions (.obj [("value", .vdate 0)]) = .ok () := by
  constructor <;>
    simp [assertOptions, elv, isPojo, typeofObject, isArrJ, isDateJ,
      lookupField]

/-- C6 (amended): with a present `value` field the constructor validation
accepts exactly the values of object type other than `null` — mappings,
sequences, and date-like values pass; numbers, strings, booleans,
function-like values, `undefined`, and `null` are rejected synchronously
with a `TypeError`. -/
theorem assertOptions_amended (fs : List (String × Json)) (v : Json)
    (h : lookupField fs "value" = some v) :
    (assertOptions (.obj fs) = .ok () ↔
      (typeofObject v = true ∧ v ≠ .vnull)) ∧
    (assertOptions (.obj fs) = .ok () ∨
      assertOptions (.obj fs) = .error msgOptionsValueObj) := by
  have hno : assertOptions (.obj fs)
      = (if !typeofObject v then Except.error msgOptionsValueObj
         else match v with
           | .vnull => .error msgOptionsValueObj
           | _ => .ok ()) := by
    simp [assertOptions, elv, isPojo, typeofObject, isArrJ, isDateJ, h]
  constructor
  · rw [hno]
    cases v <;> simp [typeofObject]
  · rw [hno]
    cases v <;> simp [typeofObject]

/-- Witness for the amended C6: an array value is accepted, a numeric
value is rejected. -/
theorem assertOptions_amended_witness :
    lookupField [("value", Json.arr [])] "value" = some (.arr []) ∧
    assertOptions (.obj [("value", .arr [])]) = .ok () ∧
    lookupField [("value", Json.vnum 42)] "value" = some (.vnum 42) ∧
    assertOptions (.obj [("value", .vnum 42)]) ≠ .ok () := by
  refine ⟨by simp [lookupField], ?_, by simp [lookupField], ?_⟩
  · exact (assertOptions_amended [("value", .arr [])] (.arr [])
      (by simp [lookupField])).1.mpr ⟨by simp [typeofObject], by simp⟩
  · intro hc
    have := (assertOptions_amended [("value", .vnum 42)] (.vnum 42)
      (by simp [lookupField])).1.mp hc
    simp [typeofObject] at this

/-- Counterexample to C5 as stated: constructing the store with an array
seed succeeds and publishes an array, not a mapping, as the aggregate
(the repository's own test suite also expects a Date seed to be published
as-is). -/
theorem aggregate_top_level_counterexample :
    kibbutzInit (.obj [("value", .arr [.vstr "a"])])
      = .ok (.arr [.vstr "a"]) ∧
    isObjJ (.arr [.vstr "a"]) = false := by
  constructor
  · simp [kibbutzInit, assertOptions, elv, isPojo, typeofObject, isArrJ,
      isDateJ, lookupField, optionsValue, deepCopy]
  · simp [isObjJ]

/-- C5 (amended): when the store is constructed without options, with
`null`/absent options, with no `value` field, or with a mapping `value`,
the published aggregate is a mapping — and it then remains a mapping
after every load and append.  (With an array or date-like seed, which
validation accepts, the published aggregate is not a mapping.) -/
theorem aggregate_top_level_amended :
    kibbutzInit .vundefined = .ok (.obj []) ∧
    kibbutzInit .vnull = .ok (.obj []) ∧
    (∀ fs : List (String × Json), hasKey fs "value" = false →
      kibbutzInit (.obj fs) = .ok (.obj [])) ∧
    (∀ (fs vfs : List (String × Json)),
      lookupField fs "value" = some (.obj vfs) →
      ∃ rfs, kibbutzInit (.obj fs) = .ok (.obj rfs)) ∧
    (∀ (v₀ : Json) (ps : List ProviderVal), isObjJ v₀ = true →
      isObjJ (kibbutzLoad v₀ ps).newState = true) ∧
    (∀ (v₀ : Json) (vals : List Json), isObjJ v₀ = true →
      isObjJ (kibbutzAppendState v₀ vals) = true) := by
  refine ⟨?_, ?_, ?_, ?_, ?_, ?_⟩
  · simp [kibbutzInit, assertOptions, elv]
  · simp [kibbutzInit, assertOptions, elv]
  · intro fs h
    have h' : lookupField fs "value" = none := by
      unfold hasKey at h
      cases hl : lookupField fs "value" with
      | none => rfl
      | some w => rw [hl] at h; simp at h
    simp [kibbutzInit, assertOptions, elv, isPojo, typeofObject, isArrJ,
      isDateJ, h', optionsValue]
  · intro fs vfs h
    refine ⟨(vfs.map fun p =>
      (p.1, if typeofObject p.2 then deepCopy p.2 else p.2)), ?_⟩
    simp [kibbutzInit, assertOptions, elv, isPojo, typeofObject, isArrJ,
      isDateJ, h, optionsValue]
    exact deepCopy_amended.2.2.2.1 vfs
  · intro v₀ ps h
    unfold kibbutzLoad
    cases hr : (loadM (deepCopy v₀) ps).2 with
    | cbOk v =>
      simp only [hr]
      exact loadM_obj (deepCopy_obj_isObj h) hr
    | cbErr e => simp only [hr]; exact h
    | thrown m => simp only [hr]; exact h
  · intro v₀ vals h
    unfold kibbutzAppendState
    by_cases he : vals.isEmpty
    · simp [he, h]
    · simp only [he, if_false, Bool.false_eq_true]
      have : ∀ (xs : List Json) (v : Json), isObjJ v = true →
          isObjJ (appendRun v xs).1 = true ∧
          (∀ w, (appendRun v xs) = (w, none) → isObjJ w = true) := by
        intro xs
        induction xs with
        | nil => intro v hv; exact ⟨hv, fun w hw => by
            rw [appendRun] at hw; injection hw with h1 _; rw [← h1]; exact hv⟩
        | cons x rest ih =>
          intro v hv
          rw [appendRun]
          cases hm : (merge v x).2 with
          | some m =>
            refine ⟨merge_obj_fst hv x, ?_⟩
            intro w hw
            simp at hw
          | none =>
            exact ih (merge v x).1 (merge_obj_fst hv x)
      cases hr : (appendRun (deepCopy v₀) vals).2 with
      | some m => simp only [hr]; exact h
      | none =>
        simp only [hr]
        exact (this vals (deepCopy v₀) (deepCopy_obj_isObj h)).1

/-- Witness for the amended C5. -/
theorem aggregate_top_level_amended_witness :
    hasKey ([("x", Json.vnum 1)]) "value" = false ∧
    kibbutzInit (.obj [("x", .vnum 1)]) = .ok (.obj []) ∧
    isObjJ (.obj [("a", Json.vstr "b")]) = true ∧
    isObjJ (kibbutzLoad (.obj [("a", .vstr "b")])
      [.withLoad 1 (.inr (.obj [("c", .vnum 2)]))]).newState = true := by
  refine ⟨by simp [hasKey, lookupField], ?_, by simp [isObjJ], ?_⟩
  · exact aggregate_top_level_amended.2.2.1 _ (by simp [hasKey, lookupField])
  · exact aggregate_top_level_amended.2.2.2.2.1 _ _ (by simp [isObjJ])

/-! ## Claims about the provider pipeline -/

/-- C7: fail-fast atomicity of load.  If every provider of `pre` is valid
and successful and the next provider fails, the published aggregate stays
exactly the pre-call value, the outcome is the callback invoked with the
provider's error (and no result), no `done` event fires, and nothing after
the failing provider is ever invoked (the whole observable output is
independent of the rest of the list). -/
theorem load_fail_fast (v₀ : Json) (pre rest rest' : List ProviderVal)
    (e : Nat) (evs : List Ev) (w : Json)
    (hpre : loadM (deepCopy v₀) pre = (evs, .cbOk w)) :
    (kibbutzLoad v₀ (pre ++ .withLoad 1 (.inl e) :: rest)).newState = v₀ ∧
    (kibbutzLoad v₀ (pre ++ .withLoad 1 (.inl e) :: rest)).outcome
      = .cbErr e ∧
    (∀ x, Ev.done x ∉
      (kibbutzLoad v₀ (pre ++ .withLoad 1 (.inl e) :: rest)).events) ∧
    kibbutzLoad v₀ (pre ++ .withLoad 1 (.inl e) :: rest)
      = kibbutzLoad v₀ (pre ++ .withLoad 1 (.inl e) :: rest') := by
  have hstep : ∀ qs : List ProviderVal,
      loadM (deepCopy v₀) (pre ++ .withLoad 1 (.inl e) :: qs)
        = (evs, .cbErr e) := by
    intro qs
    rw [loadM_append hpre]
    rw [loadM]
    simp [assertProvider]
  have hout : ∀ qs : List ProviderVal,
      kibbutzLoad v₀ (pre ++ .withLoad 1 (.inl e) :: qs)
        = ⟨evs, v₀, .cbErr e⟩ := by
    intro qs
    unfold kibbutzLoad
    rw [hstep qs]
  refine ⟨by rw [hout], by rw [hout], ?_, by rw [hout, hout]⟩
  intro x hx
  rw [hout] at hx
  obtain ⟨f, hf⟩ := @loadM_events_config pre (deepCopy v₀) (Ev.done x)
    (by rw [hpre]; exact hx)
  cases hf

/-- Witness for C7: a failing provider followed by an invalid provider
element; the aggregate is untouched, the callback receives the error, and
the trailing element is never reached. -/
theorem load_fail_fast_witness :
    loadM (deepCopy (.obj [])) ([] : List ProviderVal)
      = ([], .cbOk (deepCopy (.obj []))) ∧
    (kibbutzLoad (.obj [])
      ([] ++ .withLoad 1 (.inl 5) :: [.absent])).newState = .obj [] ∧
    (kibbutzLoad (.obj [])
      ([] ++ .withLoad 1 (.inl 5) :: [.absent])).outcome = .cbErr 5 := by
  have h := load_fail_fast (.obj []) [] [.absent] [] 5 []
    (deepCopy (.obj [])) rfl
  exact ⟨rfl, h.1, h.2.1⟩

/-- C8: sequential ordering and single completion.  The pipeline is a
serial fold over the provider list, so `config` events appear in
provider-list order, one per successful fragment; and a `done` event
appears exactly when the load succeeds, exactly once, strictly after the
last `config` event, carrying the committed value. -/
theorem load_event_ordering (v₀ : Json) (ps : List ProviderVal) :
    (∀ x, (kibbutzLoad v₀ ps).outcome = .cbOk x →
      (kibbutzLoad v₀ ps).events
        = (fragmentsOf ps).map Ev.config ++ [.done x] ∧
      ∀ p ∈ ps, ∃ f, p = .withLoad 1 (.inr f)) ∧
    (∀ x, Ev.done x ∈ (kibbutzLoad v₀ ps).events →
      (kibbutzLoad v₀ ps).outcome = .cbOk x ∧
      (kibbutzLoad v₀ ps).events
        = (fragmentsOf ps).map Ev.config ++ [.done x]) := by
  unfold kibbutzLoad
  cases hr : (loadM (deepCopy v₀) ps).2 with
  | cbOk v =>
    simp only [hr]
    obtain ⟨h1, h2⟩ := loadM_ok hr
    constructor
    · intro x hx
      obtain rfl : v = x := by injection hx
      exact ⟨by rw [h1], h2⟩
    · intro x hx
      simp only [List.mem_append, List.mem_singleton] at hx
      rcases hx with hx | hx
      · obtain ⟨f, hf⟩ := loadM_events_config hx
        cases hf
      · obtain rfl : x = v := by injection hx
        exact ⟨rfl, by rw [h1]⟩
  | cbErr e =>
    simp only [hr]
    constructor
    · intro x hx; cases hx
    · intro x hx
      obtain ⟨f, hf⟩ := loadM_events_config hx
      cases hf
  | thrown m =>
    simp only [hr]
    constructor
    · intro x hx; cases hx
    · intro x hx
      obtain ⟨f, hf⟩ := loadM_events_config hx
      cases hf

/-- Witness for C8: two successful providers produce their two `config`
events in list order followed by exactly one `done`. -/
theorem load_event_ordering_witness :
    (kibbutzLoad (.obj []) [.withLoad 1 (.inr (.obj [("a", .vnum 1)])),
        .withLoad 1 (.inr (.obj [("b", .vnum 2)]))]).outcome
      = .cbOk (kibbutzLoad (.obj []) [.withLoad 1 (.inr (.obj [("a", .vnum 1)])),
        .withLoad 1 (.inr (.obj [("b", .vnum 2)]))]).newState ∧
    (kibbutzLoad (.obj []) [.withLoad 1 (.inr (.obj [("a", .vnum 1)])),
        .withLoad 1 (.inr (.obj [("b", .vnum 2)]))]).events
      = [Ev.config (.obj [("a", .vnum 1)]), Ev.config (.obj [("b", .vnum 2)]),
          Ev.done (kibbutzLoad (.obj []) [.withLoad 1 (.inr (.obj [("a", .vnum 1)])),
            .withLoad 1 (.inr (.obj [("b", .vnum 2)]))]).newState] := by
  have hload : loadM (deepCopy (.obj []))
      [.withLoad 1 (.inr (.obj [("a", .vnum 1)])),
       .withLoad 1 (.inr (.obj [("b", .vnum 2)]))]
      = ([Ev.config (.obj [("a", .vnum 1)]), Ev.config (.obj [("b", .vnum 2)])],
         .cbOk (.obj [("a", .vnum 1), ("b", .vnum 2)])) := by
    simp [loadM, assertProvider, merge, mergeFields, deepCopy, lookupField,
      typeofObject, isDateJ, isArrJ, setField]
  have hout : (kibbutzLoad (.obj []) [.withLoad 1 (.inr (.obj [("a", .vnum 1)])),
      .withLoad 1 (.inr (.obj [("b", .vnum 2)]))])
      = ⟨[Ev.config (.obj [("a", .vnum 1)]), Ev.config (.obj [("b", .vnum 2)]),
          Ev.done (.obj [("a", .vnum 1), ("b", .vnum 2)])],
         .obj [("a", .vnum 1), ("b", .vnum 2)],
         .cbOk (.obj [("a", .vnum 1), ("b", .vnum 2)])⟩ := by
    unfold kibbutzLoad
    rw [hload]
    rfl
  have h := (load_event_ordering (.obj [])
    [.withLoad 1 (.inr (.obj [("a", .vnum 1)])),
     .withLoad 1 (.inr (.obj [("b", .vnum 2)]))]).1
    (.obj [("a", .vnum 1), ("b", .vnum 2)]) (by rw [hout])
  rw [hout] at h ⊢
  refine ⟨rfl, ?_⟩
  rw [h.1]
  simp [fragmentsOf]

/-- C9: synchronous raising with lazy provider validation.  After a valid
and successful prefix, an invalid provider element (absent, without a
callable `load`, or with the wrong arity) makes the call raise a
`TypeError` synchronously at its turn — the completion callback is never
invoked with it, the aggregate is untouched, and nothing later runs.  And
validation is lazy: if the provider at some position fails (rather than
being invalid), elements after it — valid or not — are never validated,
and the error reaches the callback rather than being thrown. -/
theorem load_sync_lazy_validation (v₀ : Json) (pre : List ProviderVal)
    (evs : List Ev) (w : Json)
    (hpre : loadM (deepCopy v₀) pre = (evs, .cbOk w)) :
    (∀ (p : ProviderVal) (m : String), assertProvider p = .error m →
      ∀ rest, kibbutzLoad v₀ (pre ++ p :: rest)
        = ⟨evs, v₀, .thrown m⟩) ∧
    (∀ (e : Nat) (rest rest' : List ProviderVal),
      kibbutzLoad v₀ (pre ++ .withLoad 1 (.inl e) :: rest)
        = kibbutzLoad v₀ (pre ++ .withLoad 1 (.inl e) :: rest') ∧
      (kibbutzLoad v₀ (pre ++ .withLoad 1 (.inl e) :: rest)).outcome
        = .cbErr e) := by
  constructor
  · intro p m hp rest
    have hstep : loadM (deepCopy v₀) (pre ++ p :: rest) = (evs, .thrown m) := by
      rw [loadM_append hpre]
      rw [loadM]
      simp [hp]
    unfold kibbutzLoad
    rw [hstep]
  · intro e rest rest'
    have hstep : ∀ qs : List ProviderVal,
        loadM (deepCopy v₀) (pre ++ .withLoad 1 (.inl e) :: qs)
          = (evs, .cbErr e) := by
      intro qs
      rw [loadM_append hpre]
      rw [loadM]
      simp [assertProvider]
    have hout : ∀ qs : List ProviderVal,
        kibbutzLoad v₀ (pre ++ .withLoad 1 (.inl e) :: qs)
          = ⟨evs, v₀, .cbErr e⟩ := by
      intro qs
      unfold kibbutzLoad
      rw [hstep qs]
    exact ⟨by rw [hout, hout], by rw [hout]⟩

/-- Witness for C9: an arity-2 provider makes the call throw at its turn
without reaching the callback, and behind a failing provider an invalid
element never raises. -/
theorem load_sync_lazy_validation_witness :
    loadM (deepCopy (.obj [])) ([] : List ProviderVal)
      = ([], .cbOk (deepCopy (.obj []))) ∧
    assertProvider (.withLoad 2 (.inr (.obj [])))
      = .error msgProviderLoadArity ∧
    kibbutzLoad (.obj []) ([] ++ .withLoad 2 (.inr (.obj [])) :: [.absent])
      = ⟨[], .obj [], .thrown msgProviderLoadArity⟩ ∧
    (kibbutzLoad (.obj []) ([] ++ .withLoad 1 (.inl 9) :: [.absent])).outcome
      = .cbErr 9 := by
  have h := load_sync_lazy_validation (.obj []) [] [] (deepCopy (.obj [])) rfl
  refine ⟨rfl, by simp [assertProvider], ?_, ?_⟩
  · exact h.1 (.withLoad 2 (.inr (.obj []))) msgProviderLoadArity
      (by simp [assertProvider]) [.absent]
  · exact (h.2 9 [.absent] []).2

/-! ## Heap model of `_merge` (object identity and in-place mutation)

To settle the frame property of `_merge` (claim C10) the tree model is
not enough: JavaScript objects are references into a heap, and `_merge`
mutates nodes in place.  `HVal` are JavaScript values with containers
represented by addresses, `HNode` the heap nodes, and `mergeH` the same
`_merge` algorithm acting on an explicit store.  The recursion is bounded
by fuel because a cyclic heap would make the source diverge as well. -/

inductive HVal where
  | hnum (n : Int)
  | hstr (s : String)
  | hbool (b : Bool)
  | hnull
  | hundefined
  | hdate (t : Int)
  | hfun (id : Nat)
  | href (addr : Nat)
deriving DecidableEq

inductive HNode where
  | hobj (fields : List (String × HVal))
  | harr (elems : List HVal)
deriving DecidableEq

abbrev HMem := List (Nat × HNode)

def memLookup : HMem → Nat → Option HNode
  | [], _ => none
  | (a, nd) :: rest, addr =>
    if a = addr then some nd else memLookup rest addr

def memSet : HMem → Nat → HNode → HMem
  | [], _, _ => []
  | (a, nd) :: rest, addr, newNd =>
    if a = addr then (a, newNd) :: rest else (a, nd) :: memSet rest addr newNd

/-- A store: the heap plus the next fresh address. -/
structure Store where
  mem : HMem
  next : Nat
deriving DecidableEq

/-- `typeof v === 'object' && !(v instanceof Date)` on heap values: the
values `_merge` recurses into (`null` or a reference to an object/array
node). -/
def stepOk : HVal → Bool
  | .hnull => true
  | .href _ => true
  | _ => false

def fLookup : List (String × HVal) → String → Option HVal
  | [], _ => none
  | (k', v') :: rest, k => if k' = k then some v' else fLookup rest k

def idxPairsH : Nat → List HVal → List (String × HVal)
  | _, [] => []
  | i, e :: rest => (toString i, e) :: idxPairsH (i + 1) rest

/-- The empty node `_merge` allocates for a missing key:
`Array.isArray(bval) ? [] : {}`. -/
def allocNode (m : HMem) (bval : HVal) : HNode :=
  match bval with
  | .href β =>
    match memLookup m β with
    | some (.harr _) => .harr []
    | _ => .hobj []
  | _ => .hobj []

mutual

/-- `_merge` on the heap model.  Returns `none` when out of fuel,
otherwise the store after the call together with the raised `TypeError`,
if any.  The returned value of `_merge` is its first argument, so it is
not repeated here. -/
def mergeH : Nat → Store → HVal → HVal → Option (Store × Option String)
  | 0, _, _, _ => none
  | fuel + 1, σ, a, b =>
    if !stepOk a || !stepOk b then some (σ, none)
    else
      match a with
      | .href α =>
        match memLookup σ.mem α with
        | some (.harr ea) =>
          match b with
          | .href β =>
            match memLookup σ.mem β with
            | some (.harr eb) =>
              some (⟨memSet σ.mem α (.harr (ea ++ eb)), σ.next⟩, none)
            | _ => some (σ, none)
          | _ => some (σ, none)
        | some (.hobj _) =>
          match b with
          | .href β =>
            match memLookup σ.mem β with
            | some (.hobj bfs) => mergeHFields fuel σ α bfs
            | some (.harr bes) => mergeHFields fuel σ α (idxPairsH 0 bes)
            | none => some (σ, none)
          | _ => some (σ, some msgNullObject)
        | none => some (σ, none)
      | _ =>
        match b with
        | .href β =>
          match memLookup σ.mem β with
          | some (.hobj bfs) =>
            if bfs.isEmpty then some (σ, none)
            else some (σ, some msgNullObject)
          | some (.harr bes) =>
            if bes.isEmpty then some (σ, none)
            else some (σ, some msgNullObject)
          | none => some (σ, none)
        | _ => some (σ, some msgNullObject)
termination_by fuel _ _ _ => (fuel, 0)

/-- The key loop of `_merge` on the heap: `α` is the address of the target
object node (re-read from the live heap on every iteration, as the
JavaScript does). -/
def mergeHFields : Nat → Store → Nat → List (String × HVal) →
    Option (Store × Option String)
  | _, σ, _, [] => some (σ, none)
  | fuel, σ, α, (k, bval) :: rest =>
    match memLookup σ.mem α with
    | some (.hobj afs) =>
      match fLookup afs k with
      | some aval =>
        if !stepOk aval || !stepOk bval then mergeHFields fuel σ α rest
        else
          match mergeH fuel σ aval bval with
          | none => none
          | some (σ', some m) => some (σ', some m)
          | some (σ', none) => mergeHFields fuel σ' α rest
      | none =>
        if !stepOk bval then
          mergeHFields fuel
            ⟨memSet σ.mem α (.hobj (afs ++ [(k, bval)])), σ.next⟩ α rest
        else
          match mergeH fuel
              ⟨memSet (σ.mem ++ [(σ.next, allocNode σ.mem bval)]) α
                (.hobj (afs ++ [(k, .href σ.next)])), σ.next + 1⟩
              (.href σ.next) bval with
          | none => none
          | some (σ', some m) => some (σ', some m)
          | some (σ', none) => mergeHFields fuel σ' α rest
    | _ => some (σ, none)
termination_by fuel _ _ pairs => (fuel, pairs.length + 1)

end

/-! ## Reachability, spines, and heap extension -/

/-- A heap value's references lie below `n`. -/
def hvalRefLT : HVal → Nat → Bool
  | .href β, n => decide (β < n)
  | _, _ => true

/-- A node's references lie below `n`. -/
def nodeRefsLT : HNode → Nat → Bool
  | .hobj fs, n => fs.all fun p => hvalRefLT p.2 n
  | .harr es, n => es.all fun v => hvalRefLT v n

/-- Store invariant: every allocated address is below `next` and every
reference stored in the heap is below `next`. -/
def StoreInv (σ : Store) : Prop :=
  ∀ p ∈ σ.mem, p.1 < σ.next ∧ nodeRefsLT p.2 σ.next = true

instance (σ : Store) : Decidable (StoreInv σ) := by
  unfold StoreInv; infer_instance

/-- The merge's write spine: addresses reached from a root by following
object fields only (array elements are pushed to, never descended
into). -/
inductive SpineN (m : HMem) : Nat → Nat → Prop where
  | refl (α : Nat) : SpineN m α α
  | step {α β γ : Nat} {fs : List (String × HVal)} {k : String} :
      memLookup m α = some (.hobj fs) → (k, HVal.href β) ∈ fs →
      SpineN m β γ → SpineN m α γ

def SpineV (m : HMem) : HVal → Nat → Prop
  | .href α, γ => SpineN m α γ
  | _, _ => False

/-- Full reachability: addresses reached through object fields and array
elements — the structure of a value. -/
inductive ReachN (m : HMem) : Nat → Nat → Prop where
  | refl (α : Nat) : ReachN m α α
  | stepObj {α β γ : Nat} {fs : List (String × HVal)} {k : String} :
      memLookup m α = some (.hobj fs) → (k, HVal.href β) ∈ fs →
      ReachN m β γ → ReachN m α γ
  | stepArr {α β γ : Nat} {es : List HVal} :
      memLookup m α = some (.harr es) → HVal.href β ∈ es →
      ReachN m β γ → ReachN m α γ

def ReachV (m : HMem) : HVal → Nat → Prop
  | .href α, γ => ReachN m α γ
  | _, _ => False

/-- Fields appended during a merge only reference fresh addresses. -/
def GoodExtra (n : Nat) (fs : List (String × HVal)) : Prop :=
  ∀ p ∈ fs, ∀ β, p.2 = HVal.href β → n ≤ β

/-- How an address below `n` may evolve during a merge: unchanged, an
object extended with fresh-referencing fields, or an array with new
contents. -/
def ExtOld (n : Nat) (x y : Option HNode) : Prop :=
  y = x ∨
  (∃ fs extra, x = some (.hobj fs) ∧ y = some (.hobj (fs ++ extra)) ∧
    GoodExtra n extra) ∨
  (∃ es es2, x = some (.harr es) ∧ y = some (.harr es2))

/-- What may live at an address at or above `n` after a merge: nothing,
an object whose fields reference only addresses at or above `n`, or an
array. -/
def ExtNew (n : Nat) (y : Option HNode) : Prop :=
  y = none ∨ (∃ fs, y = some (.hobj fs) ∧ GoodExtra n fs) ∨
  (∃ es, y = some (.harr es))

/-- Heap extension relation for a merge that started with `next = n`. -/
def HExt (n : Nat) (m0 m1 : HMem) : Prop :=
  ∀ δ, (δ < n → ExtOld n (memLookup m0 δ) (memLookup m1 δ)) ∧
       (n ≤ δ → ExtNew n (memLookup m1 δ))

/-- Every node of the heap has references below `n`. -/
def MemRefsLT (n : Nat) (m : HMem) : Prop :=
  ∀ δ nd, memLookup m δ = some nd → nodeRefsLT nd n = true

/-! ### Basic lemmas about the heap primitives -/

theorem memLookup_mem {m : HMem} {δ : Nat} {nd : HNode}
    (h : memLookup m δ = some nd) : (δ, nd) ∈ m := by
  induction m with
  | nil => simp [memLookup] at h
  | cons q rest ih =>
    obtain ⟨a, x⟩ := q
    by_cases ha : a = δ
    · subst ha
      simp [memLookup] at h
      simp [h]
    · simp [memLookup, ha] at h
      exact List.mem_cons_of_mem _ (ih h)

theorem storeInv_lookup {σ : Store} (hσ : StoreInv σ) {δ : Nat} {nd : HNode}
    (h : memLookup σ.mem δ = some nd) :
    δ < σ.next ∧ nodeRefsLT nd σ.next = true :=
  hσ _ (memLookup_mem h)

theorem storeInv_none {σ : Store} (hσ : StoreInv σ) {δ : Nat}
    (h : σ.next ≤ δ) : memLookup σ.mem δ = none := by
  cases hl : memLookup σ.mem δ with
  | none => rfl
  | some nd =>
    have := (storeInv_lookup hσ hl).1
    omega

theorem memLookup_memSet_ne {m : HMem} {α δ : Nat} {nd : HNode}
    (h : δ ≠ α) : memLookup (memSet m α nd) δ = memLookup m δ := by
  induction m with
  | nil => simp [memSet, memLookup]
  | cons q rest ih =>
    obtain ⟨a, x⟩ := q
    by_cases ha : a = α
    · subst ha
      have had : ¬ a = δ := fun hh => h hh.symm
      simp [memSet, memLookup, had]
    · simp [memSet, ha, memLookup]
      by_cases hd : a = δ
      · simp [hd]
      · simp [hd, ih]

theorem memLookup_memSet_self {m : HMem} {α : Nat} {nd0 nd : HNode}
    (h : memLookup m α = some nd0) :
    memLookup (memSet m α nd) α = some nd := by
  induction m with
  | nil => simp [memLookup] at h
  | cons q rest ih =>
    obtain ⟨a, x⟩ := q
    by_cases ha : a = α
    · subst ha
      simp [memSet, memLookup]
    · simp [memLookup, ha] at h
      simp [memSet, memLookup, ha, ih h]

theorem memLookup_append_left {m l : HMem} {δ : Nat} {nd : HNode}
    (h : memLookup m δ = some nd) : memLookup (m ++ l) δ = some nd := by
  induction m with
  | nil => simp [memLookup] at h
  | cons q rest ih =>
    obtain ⟨a, x⟩ := q
    by_cases ha : a = δ
    · subst ha
      simpa [memLookup] using h
    · simp [memLookup, ha] at h ⊢
      exact ih h

theorem memLookup_append_none {m l : HMem} {δ : Nat}
    (h : memLookup m δ = none) : memLookup (m ++ l) δ = memLookup l δ := by
  induction m with
  | nil => simp
  | cons q rest ih =>
    obtain ⟨a, x⟩ := q
    by_cases ha : a = δ
    · subst ha
      simp [memLookup] at h
    · simp [memLookup, ha] at h ⊢
      exact ih h

theorem mem_memSet {m : HMem} {α : Nat} {nd : HNode} {p : Nat × HNode}
    (h : p ∈ memSet m α nd) : p = (α, nd) ∨ p ∈ m := by
  induction m with
  | nil => simp [memSet] at h
  | cons q rest ih =>
    obtain ⟨a, x⟩ := q
    by_cases ha : a = α
    · subst ha
      simp [memSet] at h
      rcases h with h | h
      · exact Or.inl (by rw [h])
      · exact Or.inr (List.mem_cons_of_mem _ h)
    · simp [memSet, ha] at h
      rcases h with h | h
      · exact Or.inr (by simp [h])
      · rcases ih h with h' | h'
        · exact Or.inl h'
        · exact Or.inr (List.mem_cons_of_mem _ h')

theorem hvalRefLT_mono {v : HVal} {n n1 : Nat} (h : hvalRefLT v n = true)
    (hn : n ≤ n1) : hvalRefLT v n1 = true := by
  cases v <;> simp [hvalRefLT] at h ⊢
  omega

theorem nodeRefsLT_mono {nd : HNode} {n n1 : Nat}
    (h : nodeRefsLT nd n = true) (hn : n ≤ n1) :
    nodeRefsLT nd n1 = true := by
  cases nd with
  | hobj fs =>
    simp [nodeRefsLT, List.all_eq_true] at h ⊢
    intro a b hab
    exact hvalRefLT_mono (h a b hab) hn
  | harr es =>
    simp [nodeRefsLT, List.all_eq_true] at h ⊢
    exact fun v hv => hvalRefLT_mono (h v hv) hn

/-! ### Extension-relation lemmas -/

theorem goodExtra_weaken {n n1 : Nat} {fs : List (String × HVal)}
    (hn : n ≤ n1) (h : GoodExtra n1 fs) : GoodExtra n fs :=
  fun p hp β hβ => le_trans hn (h p hp β hβ)

theorem hext_refl {n : Nat} {m : HMem}
    (h : ∀ δ, n ≤ δ → memLookup m δ = none) : HExt n m m := by
  intro δ
  exact ⟨fun _ => Or.inl rfl, fun hδ => Or.inl (h δ hδ)⟩

theorem hext_compose {n n1 : Nat} {m0 m1 m2 : HMem} (hn : n ≤ n1)
    (h01 : HExt n m0 m1) (h12 : HExt n1 m1 m2) : HExt n m0 m2 := by
  intro δ
  constructor
  · intro hδ
    have e01 := (h01 δ).1 hδ
    have e12 := (h12 δ).1 (lt_of_lt_of_le hδ hn)
    rcases e01 with e01 | ⟨fs, extra, hx, hy, hg⟩ | ⟨es, es2, hx, hy⟩
    · rw [e01] at e12
      rcases e12 with e12 | ⟨fs, extra, hx, hy, hg⟩ | ⟨es, es2, hx, hy⟩
      · exact Or.inl e12
      · exact Or.inr (Or.inl ⟨fs, extra, hx, hy, goodExtra_weaken hn hg⟩)
      · exact Or.inr (Or.inr ⟨es, es2, hx, hy⟩)
    · rcases e12 with e12 | ⟨fs2, extra2, hx2, hy2, hg2⟩ | ⟨es2, es3, hx2, hy2⟩
      · rw [hy] at e12
        exact Or.inr (Or.inl ⟨fs, extra, hx, e12, hg⟩)
      · rw [hy] at hx2
        obtain rfl : fs2 = fs ++ extra := by
          injection hx2 with h1
          injection h1 with h2
          exact h2.symm
        refine Or.inr (Or.inl ⟨fs, extra ++ extra2, hx, ?_, ?_⟩)
        · rw [hy2, List.append_assoc]
        · intro p hp β hβ
          rcases List.mem_append.mp hp with hp | hp
          · exact hg p hp β hβ
          · exact le_trans hn (hg2 p hp β hβ)
      · rw [hy] at hx2
        simp at hx2
    · rcases e12 with e12 | ⟨fs2, extra2, hx2, hy2, hg2⟩ | ⟨es2, es3, hx2, hy2⟩
      · rw [hy] at e12
        exact Or.inr (Or.inr ⟨es, es2, hx, e12⟩)
      · rw [hy] at hx2
        simp at hx2
      · exact Or.inr (Or.inr ⟨es, es3, hx, hy2⟩)
  · intro hδ
    by_cases hδ1 : δ < n1
    · have e01 := (h01 δ).2 hδ
      have e12 := (h12 δ).1 hδ1
      rcases e01 with e01 | ⟨fs, hy, hg⟩ | ⟨es, hy⟩
      · rcases e12 with e12 | ⟨fs2, extra2, hx2, hy2, hg2⟩ | ⟨es2, es3, hx2, hy2⟩
        · exact Or.inl (e12.trans e01)
        · rw [e01] at hx2
          simp at hx2
        · rw [e01] at hx2
          simp at hx2
      · rcases e12 with e12 | ⟨fs2, extra2, hx2, hy2, hg2⟩ | ⟨es2, es3, hx2, hy2⟩
        · rw [hy] at e12
          exact Or.inr (Or.inl ⟨fs, e12, hg⟩)
        · rw [hy] at hx2
          have heq : fs2 = fs := by
            injection hx2 with h1
            injection h1 with h2
            exact h2.symm
          rw [heq] at hy2
          refine Or.inr (Or.inl ⟨fs ++ extra2, hy2, ?_⟩)
          intro p hp β hβ
          rcases List.mem_append.mp hp with hp | hp
          · exact hg p hp β hβ
          · exact le_trans hn (hg2 p hp β hβ)
        · rw [hy] at hx2
          simp at hx2
      · rcases e12 with e12 | ⟨fs2, extra2, hx2, hy2, hg2⟩ | ⟨es2, es3, hx2, hy2⟩
        · rw [hy] at e12
          exact Or.inr (Or.inr ⟨es, e12⟩)
        · rw [hy] at hx2
          simp at hx2
        · exact Or.inr (Or.inr ⟨es3, hy2⟩)
    · have e12 := (h12 δ).2 (by omega)
      rcases e12 with e12 | ⟨fs, hy, hg⟩ | ⟨es, hy⟩
      · exact Or.inl e12
      · exact Or.inr (Or.inl ⟨fs, hy, goodExtra_weaken hn hg⟩)
      · exact Or.inr (Or.inr ⟨es, hy⟩)

/-- Appending a field whose value is a scalar or a fresh reference to an
object node preserves the extension relation. -/
theorem hext_set_obj_append {n : Nat} {m0 m1 : HMem} {α : Nat}
    {afs : List (String × HVal)} {k : String} {w : HVal}
    (h01 : HExt n m0 m1) (hα : memLookup m1 α = some (.hobj afs))
    (hw : ∀ β, w = HVal.href β → n ≤ β) :
    HExt n m0 (memSet m1 α (.hobj (afs ++ [(k, w)]))) := by
  intro δ
  by_cases hδα : δ = α
  · subst hδα
    have hset : memLookup (memSet m1 δ (.hobj (afs ++ [(k, w)]))) δ
        = some (.hobj (afs ++ [(k, w)])) := memLookup_memSet_self hα
    constructor
    · intro hδ
      have e01 := (h01 δ).1 hδ
      rcases e01 with e01 | ⟨fs, extra, hx, hy, hg⟩ | ⟨es, es2, hx, hy⟩
      · rw [hα] at e01
        refine Or.inr (Or.inl ⟨afs, [(k, w)], e01.symm, hset, ?_⟩)
        intro p hp β hβ
        simp at hp
        rw [hp] at hβ
        exact hw β hβ
      · rw [hα] at hy
        have heq : afs = fs ++ extra :=
          HNode.hobj.inj (Option.some.inj hy)
        subst heq
        refine Or.inr (Or.inl ⟨fs, extra ++ [(k, w)], hx, ?_, ?_⟩)
        · rw [← List.append_assoc]
          exact hset
        · intro p hp β hβ
          rcases List.mem_append.mp hp with hp | hp
          · exact hg p hp β hβ
          · simp at hp
            rw [hp] at hβ
            exact hw β hβ
      · rw [hα] at hy
        simp at hy
    · intro hδ
      have e01 := (h01 δ).2 hδ
      rcases e01 with e01 | ⟨fs, hy, hg⟩ | ⟨es, hy⟩
      · rw [hα] at e01
        cases e01
      · rw [hα] at hy
        have heq : afs = fs :=
          HNode.hobj.inj (Option.some.inj hy)
        subst heq
        refine Or.inr (Or.inl ⟨afs ++ [(k, w)], hset, ?_⟩)
        intro p hp β hβ
        rcases List.mem_append.mp hp with hp | hp
        · exact hg p hp β hβ
        · simp at hp
          rw [hp] at hβ
          exact hw β hβ
      · rw [hα] at hy
        simp at hy
  · have hset : memLookup (memSet m1 α (.hobj (afs ++ [(k, w)]))) δ
        = memLookup m1 δ := memLookup_memSet_ne hδα
    constructor
    · intro hδ
      rw [hset]
      exact (h01 δ).1 hδ
    · intro hδ
      rw [hset]
      exact (h01 δ).2 hδ

/-- Replacing the contents of an array node preserves the extension
relation. -/
theorem hext_set_arr {n : Nat} {m0 m1 : HMem} {α : Nat} {ea es2 : List HVal}
    (h01 : HExt n m0 m1) (hα : memLookup m1 α = some (.harr ea)) :
    HExt n m0 (memSet m1 α (.harr es2)) := by
  intro δ
  by_cases hδα : δ = α
  · subst hδα
    have hset : memLookup (memSet m1 δ (.harr es2)) δ
        = some (.harr es2) := memLookup_memSet_self hα
    constructor
    · intro hδ
      have e01 := (h01 δ).1 hδ
      rcases e01 with e01 | ⟨fs, extra, hx, hy, hg⟩ | ⟨es, esb, hx, hy⟩
      · rw [hα] at e01
        exact Or.inr (Or.inr ⟨ea, es2, e01.symm, hset⟩)
      · rw [hα] at hy
        simp at hy
      · exact Or.inr (Or.inr ⟨es, es2, hx, hset⟩)
    · intro hδ
      exact Or.inr (Or.inr ⟨es2, hset⟩)
  · have hset : memLookup (memSet m1 α (.harr es2)) δ
        = memLookup m1 δ := memLookup_memSet_ne hδα
    constructor
    · intro hδ
      rw [hset]
      exact (h01 δ).1 hδ
    · intro hδ
      rw [hset]
      exact (h01 δ).2 hδ

/-- Allocating a fresh empty node at an address at or above `n` preserves
the extension relation. -/
theorem hext_alloc {n : Nat} {m0 m1 : HMem} {ν : Nat} {nd : HNode}
    (h01 : HExt n m0 m1) (hν : memLookup m1 ν = none) (hνn : n ≤ ν)
    (hnd : nd = .hobj [] ∨ ∃ es, nd = .harr es) :
    HExt n m0 (m1 ++ [(ν, nd)]) := by
  intro δ
  by_cases hδν : δ = ν
  · have hlook : memLookup (m1 ++ [(ν, nd)]) δ = some nd := by
      rw [hδν, memLookup_append_none hν]
      simp [memLookup]
    constructor
    · intro hδ
      omega
    · intro hδ
      rcases hnd with hnd | ⟨es, hnd⟩
      · refine Or.inr (Or.inl ⟨[], by rw [hlook, hnd], ?_⟩)
        intro p hp
        simp at hp
      · exact Or.inr (Or.inr ⟨es, by rw [hlook, hnd]⟩)
    
  · have hlook : memLookup (m1 ++ [(ν, nd)]) δ = memLookup m1 δ := by
      cases hl : memLookup m1 δ with
      | some x => exact memLookup_append_left hl
      | none =>
        rw [memLookup_append_none hl]
        simp [memLookup]
        exact fun h => hδν h.symm
    constructor
    · intro hδ
      rw [hlook]
      exact (h01 δ).1 hδ
    · intro hδ
      rw [hlook]
      exact (h01 δ).2 hδ

/-- In an extended heap, a spine starting at or above `n` stays at or
above `n`: fresh object nodes only reference fresh addresses. -/
theorem spine_new {n : Nat} {m0 m1 : HMem} (h01 : HExt n m0 m1) :
    ∀ {β γ : Nat}, SpineN m1 β γ → n ≤ β → n ≤ γ := by
  intro β γ h
  induction h with
  | refl => exact id
  | @step α' β' γ' fs k hlook hmem htail ih =>
    intro hβ
    have e := (h01 α').2 hβ
    rcases e with e | ⟨fs2, hy, hg⟩ | ⟨es, hy⟩
    · rw [hlook] at e
      cases e
    · rw [hlook] at hy
      have heq : fs2 = fs := (HNode.hobj.inj (Option.some.inj hy)).symm
      subst heq
      exact ih (hg _ hmem _ rfl)
    · rw [hlook] at hy
      simp at hy

/-- Spine paths between old addresses in an extended heap already existed
in the original heap. -/
theorem spine_ext {n : Nat} {m0 m1 : HMem} (href0 : MemRefsLT n m0)
    (h01 : HExt n m0 m1) :
    ∀ {α γ : Nat}, SpineN m1 α γ → α < n → γ < n → SpineN m0 α γ := by
  intro α γ h
  induction h with
  | refl => intro _ _; exact SpineN.refl _
  | @step α' β' γ' fs k hlook hmem htail ih =>
    intro hα hγ
    have e := (h01 α').1 hα
    rcases e with e | ⟨fs0, extra, hx, hy, hg⟩ | ⟨es, es2, hx, hy⟩
    · rw [hlook] at e
      have hβ : β' < n := by
        have hr := href0 α' _ e.symm
        simp [nodeRefsLT, List.all_eq_true] at hr
        have := hr k (.href β') hmem
        simpa [hvalRefLT] using this
      exact SpineN.step e.symm hmem (ih hβ hγ)
    · rw [hlook] at hy
      have heq : fs = fs0 ++ extra := HNode.hobj.inj (Option.some.inj hy)
      subst heq
      rcases List.mem_append.mp hmem with hmem | hmem
      · have hβ : β' < n := by
          have hr := href0 α' _ hx
          simp [nodeRefsLT, List.all_eq_true] at hr
          have := hr k (.href β') hmem
          simpa [hvalRefLT] using this
        exact SpineN.step hx hmem (ih hβ hγ)
      · have hβ : n ≤ β' := hg _ hmem _ rfl
        have := spine_new h01 htail hβ
        omega
    · rw [hlook] at hy
      simp at hy

theorem memRefsLT_of_inv {σ : Store} (h : StoreInv σ) :
    MemRefsLT σ.next σ.mem :=
  fun _ _ hl => (storeInv_lookup h hl).2

theorem fLookup_mem {fs : List (String × HVal)} {k : String} {v : HVal}
    (h : fLookup fs k = some v) : (k, v) ∈ fs := by
  induction fs with
  | nil => simp [fLookup] at h
  | cons q rest ih =>
    obtain ⟨k', v'⟩ := q
    by_cases hk : k' = k
    · subst hk
      simp [fLookup] at h
      simp [h]
    · simp [fLookup, hk] at h
      exact List.mem_cons_of_mem _ (ih h)

theorem idxPairsH_mem {es : List HVal} {i : Nat} {k : String} {v : HVal}
    (h : (k, v) ∈ idxPairsH i es) : v ∈ es := by
  induction es generalizing i with
  | nil => simp [idxPairsH] at h
  | cons e rest ih =>
    simp only [idxPairsH, List.mem_cons] at h
    rcases h with h | h
    · injection h with _ h2
      simp [h2]
    · exact List.mem_cons_of_mem _ (ih h)

theorem nodeRefsLT_field {fs : List (String × HVal)} {n : Nat}
    (h : nodeRefsLT (.hobj fs) n = true) {k : String} {v : HVal}
    (hv : (k, v) ∈ fs) : hvalRefLT v n = true := by
  simp [nodeRefsLT, List.all_eq_true] at h
  exact h k v hv

theorem nodeRefsLT_elem {es : List HVal} {n : Nat}
    (h : nodeRefsLT (.harr es) n = true) {v : HVal} (hv : v ∈ es) :
    hvalRefLT v n = true := by
  simp [nodeRefsLT, List.all_eq_true] at h
  exact h v hv

theorem nodeRefsLT_append_field {fs : List (String × HVal)} {n : Nat}
    {k : String} {w : HVal} (h : nodeRefsLT (.hobj fs) n = true)
    (hw : hvalRefLT w n = true) :
    nodeRefsLT (.hobj (fs ++ [(k, w)])) n = true := by
  simp [nodeRefsLT, List.all_eq_true] at h ⊢
  constructor
  · exact h
  · exact hw

theorem nodeRefsLT_arr_append {ea eb : List HVal} {n : Nat}
    (ha : nodeRefsLT (.harr ea) n = true)
    (hb : nodeRefsLT (.harr eb) n = true) :
    nodeRefsLT (.harr (ea ++ eb)) n = true := by
  simp [nodeRefsLT, List.all_eq_true] at ha hb ⊢
  exact ⟨ha, hb⟩

theorem storeInv_memSet {σ : Store} (h : StoreInv σ) {α : Nat}
    {nd0 nd : HNode} (hl : memLookup σ.mem α = some nd0)
    (hnd : nodeRefsLT nd σ.next = true) :
    StoreInv ⟨memSet σ.mem α nd, σ.next⟩ := by
  intro p hp
  rcases mem_memSet hp with hp | hp
  · subst hp
    exact ⟨(storeInv_lookup h hl).1, hnd⟩
  · exact h p hp

theorem spineV_of_field {m : HMem} {α : Nat} {afs : List (String × HVal)}
    {k : String} {aval : HVal} {γ : Nat}
    (hα : memLookup m α = some (.hobj afs)) (hf : fLookup afs k = some aval)
    (h : SpineV m aval γ) : SpineN m α γ := by
  cases aval with
  | href β => exact SpineN.step hα (fLookup_mem hf) h
  | hnull => cases h
  | hnum n => cases h
  | hstr s => cases h
  | hbool b => cases h
  | hundefined => cases h
  | hdate t => cases h
  | hfun i => cases h

/-- Frame property of `mergeH` at a given fuel: the store only grows, the
invariant is preserved, the heap evolves by the extension relation, and
every old address outside the target's spine is untouched. -/
def MergeFrameH (f : Nat) : Prop :=
  ∀ (σ : Store) (a b : HVal) (out : Store × Option String),
    mergeH f σ a b = some out → StoreInv σ →
    hvalRefLT a σ.next = true → hvalRefLT b σ.next = true →
    σ.next ≤ out.1.next ∧ StoreInv out.1 ∧
      HExt σ.next σ.mem out.1.mem ∧
      (∀ γ, γ < σ.next → ¬ SpineV σ.mem a γ →
        memLookup out.1.mem γ = memLookup σ.mem γ)

theorem frame_trivial {σ : Store} (hσ : StoreInv σ) (e : Option String)
    (P : Nat → Prop) :
    σ.next ≤ (σ, e).1.next ∧ StoreInv (σ, e).1 ∧
      HExt σ.next σ.mem (σ, e).1.mem ∧
      (∀ γ, γ < σ.next → P γ →
        memLookup (σ, e).1.mem γ = memLookup σ.mem γ) :=
  ⟨le_refl _, hσ, hext_refl (fun _ hδ => storeInv_none hσ hδ),
    fun _ _ _ => rfl⟩

theorem allocNode_shape (m : HMem) (bval : HVal) :
    allocNode m bval = .hobj [] ∨ ∃ es, allocNode m bval = .harr es := by
  unfold allocNode
  cases bval
  case href β =>
    cases hl : memLookup m β with
    | none => simp [hl]
    | some nd =>
      cases nd with
      | hobj fs => simp [hl]
      | harr es => exact Or.inr ⟨[], by simp [hl]⟩
  all_goals simp

theorem allocNode_refs (m : HMem) (bval : HVal) (n : Nat) :
    nodeRefsLT (allocNode m bval) n = true := by
  rcases allocNode_shape m bval with h | ⟨es, h⟩
  · simp [h, nodeRefsLT]
  · have hes : es = [] := by
      unfold allocNode at h
      cases bval <;> simp_all
      case href β =>
        cases hl : memLookup m β with
        | none => simp [hl] at h
        | some nd =>
          cases nd with
          | hobj fs => simp [hl] at h
          | harr es2 =>
            simp [hl] at h
            exact h
    rw [h, hes]
    simp [nodeRefsLT]

/-- No spine step leaves an array node or an empty object node. -/
theorem spine_stuck {m : HMem} {ν γ : Nat}
    (h : (∃ es, memLookup m ν = some (.harr es)) ∨
      memLookup m ν = some (.hobj [])) (hs : SpineN m ν γ) : γ = ν := by
  cases hs with
  | refl => rfl
  | step hlook hmem htail =>
    rcases h with ⟨es, h⟩ | h
    · rw [hlook] at h
      simp at h
    · rw [hlook] at h
      have := HNode.hobj.inj (Option.some.inj h.symm)
      subst this
      simp at hmem

/-- Frame property of the key loop, given the frame property of `mergeH`
at the same fuel. -/
theorem fields_frame {f : Nat} (hP : MergeFrameH f) :
    ∀ (pairs : List (String × HVal)) (σ : Store) (α : Nat)
      (out : Store × Option String),
      mergeHFields f σ α pairs = some out → StoreInv σ → α < σ.next →
      (∀ p ∈ pairs, hvalRefLT p.2 σ.next = true) →
      σ.next ≤ out.1.next ∧ StoreInv out.1 ∧
        HExt σ.next σ.mem out.1.mem ∧
        (∀ γ, γ < σ.next → ¬ SpineN σ.mem α γ →
          memLookup out.1.mem γ = memLookup σ.mem γ) := by
  intro pairs
  induction pairs with
  | nil =>
    intro σ α out hmf hσ hα hrefs
    rw [mergeHFields] at hmf
    obtain rfl : out = (σ, none) := (Option.some.inj hmf).symm
    exact frame_trivial hσ none _
  | cons q rest ih =>
    obtain ⟨k, bval⟩ := q
    intro σ α out hmf hσ hα hrefs
    have hbv : hvalRefLT bval σ.next = true := hrefs (k, bval) (by simp)
    have hrest : ∀ p ∈ rest, hvalRefLT p.2 σ.next = true :=
      fun p hp => hrefs p (List.mem_cons_of_mem _ hp)
    rw [mergeHFields] at hmf
    cases hαl : memLookup σ.mem α with
    | none =>
      simp only [hαl] at hmf
      obtain rfl : out = (σ, none) := (Option.some.inj hmf).symm
      exact frame_trivial hσ none _
    | some nd =>
      cases nd with
      | harr ea =>
        simp only [hαl] at hmf
        obtain rfl : out = (σ, none) := (Option.some.inj hmf).symm
        exact frame_trivial hσ none _
      | hobj afs =>
        simp only [hαl] at hmf
        have hnode := (storeInv_lookup hσ hαl).2
        cases hfl : fLookup afs k with
        | some aval =>
          simp only [hfl] at hmf
          have hav : hvalRefLT aval σ.next = true :=
            nodeRefsLT_field hnode (fLookup_mem hfl)
          by_cases hsv : (!stepOk aval || !stepOk bval) = true
          · rw [if_pos hsv] at hmf
            exact ih σ α out hmf hσ hα hrest
          · rw [if_neg hsv] at hmf
            cases hm : mergeH f σ aval bval with
            | none => rw [hm] at hmf; cases hmf
            | some r1 =>
              obtain ⟨σ1, e1⟩ := r1
              rw [hm] at hmf
              obtain ⟨h1le, h1inv, h1ext, h1frame⟩ :=
                hP σ aval bval (σ1, e1) hm hσ hav hbv
              have hnospine : ∀ γ, γ < σ.next → ¬ SpineN σ.mem α γ →
                  ¬ SpineV σ.mem aval γ :=
                fun γ _ hsp hs => hsp (spineV_of_field hαl hfl hs)
              cases e1 with
              | some m =>
                obtain rfl : out = (σ1, some m) := (Option.some.inj hmf).symm
                exact ⟨h1le, h1inv, h1ext,
                  fun γ hγ hsp => h1frame γ hγ (hnospine γ hγ hsp)⟩
              | none =>
                obtain ⟨h2le, h2inv, h2ext, h2frame⟩ :=
                  ih σ1 α out hmf h1inv (lt_of_lt_of_le hα h1le)
                    (fun p hp => hvalRefLT_mono (hrest p hp) h1le)
                refine ⟨le_trans h1le h2le, h2inv,
                  hext_compose h1le h1ext h2ext, ?_⟩
                intro γ hγ hsp
                have s1 : memLookup σ1.mem γ = memLookup σ.mem γ :=
                  h1frame γ hγ (hnospine γ hγ hsp)
                have hsp1 : ¬ SpineN σ1.mem α γ := fun hs =>
                  hsp (spine_ext (memRefsLT_of_inv hσ) h1ext hs hα hγ)
                have s2 : memLookup out.1.mem γ = memLookup σ1.mem γ :=
                  h2frame γ (lt_of_lt_of_le hγ h1le) hsp1
                exact s2.trans s1
        | none =>
          simp only [hfl] at hmf
          by_cases hsv : (!stepOk bval) = true
          · rw [if_pos hsv] at hmf
            have hwnotref : ∀ β, bval = HVal.href β → σ.next ≤ β := by
              intro β hβ
              rw [hβ] at hsv
              simp [stepOk] at hsv
            have hnode1 : nodeRefsLT (.hobj (afs ++ [(k, bval)]))
                σ.next = true := nodeRefsLT_append_field hnode hbv
            have hinv1 : StoreInv
                ⟨memSet σ.mem α (.hobj (afs ++ [(k, bval)])), σ.next⟩ :=
              storeInv_memSet hσ hαl hnode1
            have hext1 : HExt σ.next σ.mem
                (memSet σ.mem α (.hobj (afs ++ [(k, bval)]))) :=
              hext_set_obj_append
                (hext_refl (fun _ hδ => storeInv_none hσ hδ)) hαl hwnotref
            obtain ⟨h2le, h2inv, h2ext, h2frame⟩ :=
              ih _ α out hmf hinv1 hα hrest
            refine ⟨h2le, h2inv, hext_compose (le_refl _) hext1 h2ext, ?_⟩
            intro γ hγ hsp
            have hγα : γ ≠ α := fun h => hsp (h ▸ SpineN.refl γ)
            have s1 : memLookup
                (memSet σ.mem α (.hobj (afs ++ [(k, bval)]))) γ
                = memLookup σ.mem γ := memLookup_memSet_ne hγα
            have hsp1 : ¬ SpineN
                (memSet σ.mem α (.hobj (afs ++ [(k, bval)]))) α γ :=
              fun hs =>
                hsp (spine_ext (memRefsLT_of_inv hσ) hext1 hs hα hγ)
            have s2 := h2frame γ hγ hsp1
            exact s2.trans s1
          · rw [if_neg hsv] at hmf
            have hν : memLookup σ.mem σ.next = none :=
              storeInv_none hσ (le_refl _)
            have hexta : HExt σ.next σ.mem
                (σ.mem ++ [(σ.next, allocNode σ.mem bval)]) :=
              hext_alloc (hext_refl (fun _ hδ => storeInv_none hσ hδ)) hν
                (le_refl _) (allocNode_shape _ _)
            have hαl2 : memLookup
                (σ.mem ++ [(σ.next, allocNode σ.mem bval)]) α
                = some (.hobj afs) := memLookup_append_left hαl
            have hextb : HExt σ.next σ.mem
                (memSet (σ.mem ++ [(σ.next, allocNode σ.mem bval)]) α
                  (.hobj (afs ++ [(k, .href σ.next)]))) :=
              hext_set_obj_append hexta hαl2
                (fun β hβ => by injection hβ with h1; omega)
            have hinv2 : StoreInv
                ⟨memSet (σ.mem ++ [(σ.next, allocNode σ.mem bval)]) α
                  (.hobj (afs ++ [(k, .href σ.next)])), σ.next + 1⟩ := by
              intro p hp
              rcases mem_memSet hp with hp | hp
              · rw [hp]
                refine ⟨by simp; omega, ?_⟩
                apply nodeRefsLT_append_field
                · exact nodeRefsLT_mono hnode (Nat.le_succ _)
                · simp [hvalRefLT]
              · rcases List.mem_append.mp hp with hp | hp
                · have hq := hσ p hp
                  exact ⟨by simp; omega, nodeRefsLT_mono hq.2 (Nat.le_succ _)⟩
                · simp at hp
                  rw [hp]
                  exact ⟨by simp, allocNode_refs _ _ _⟩
            cases hm : mergeH f
                ⟨memSet (σ.mem ++ [(σ.next, allocNode σ.mem bval)]) α
                  (.hobj (afs ++ [(k, .href σ.next)])), σ.next + 1⟩
                (.href σ.next) bval with
            | none => rw [hm] at hmf; cases hmf
            | some r1 =>
              obtain ⟨σ3, e1⟩ := r1
              rw [hm] at hmf
              obtain ⟨h1le, h1inv, h1ext, h1frame⟩ :=
                hP _ (.href σ.next) bval (σ3, e1) hm hinv2
                  (by simp [hvalRefLT])
                  (hvalRefLT_mono hbv (Nat.le_succ _))
              have hcomp : HExt σ.next σ.mem σ3.mem :=
                hext_compose (Nat.le_succ _) hextb h1ext
              have hsmall : ∀ γ, γ < σ.next → ¬ SpineN σ.mem α γ →
                  memLookup σ3.mem γ = memLookup σ.mem γ := by
                intro γ hγ hsp
                have hγα : γ ≠ α := fun h => hsp (h ▸ SpineN.refl γ)
                have s1 : memLookup
                    (memSet (σ.mem ++ [(σ.next, allocNode σ.mem bval)]) α
                      (.hobj (afs ++ [(k, .href σ.next)]))) γ
                    = memLookup σ.mem γ := by
                  rw [memLookup_memSet_ne hγα]
                  cases hl : memLookup σ.mem γ with
                  | some x => exact memLookup_append_left hl
                  | none =>
                    rw [memLookup_append_none hl]
                    simp [memLookup]
                    omega
                have hνl : memLookup
                    (memSet (σ.mem ++ [(σ.next, allocNode σ.mem bval)]) α
                      (.hobj (afs ++ [(k, .href σ.next)]))) σ.next
                    = some (allocNode σ.mem bval) := by
                  rw [memLookup_memSet_ne (fun h : σ.next = α => by omega)]
                  rw [memLookup_append_none hν]
                  simp [memLookup]
                have hnsp : ¬ SpineV
                    (memSet (σ.mem ++ [(σ.next, allocNode σ.mem bval)]) α
                      (.hobj (afs ++ [(k, .href σ.next)])))
                    (.href σ.next) γ := by
                  intro hs
                  have hγν : γ = σ.next := by
                    apply spine_stuck _ hs
                    rcases allocNode_shape σ.mem bval with hsh | ⟨es, hsh⟩
                    · exact Or.inr (by rw [hνl, hsh])
                    · exact Or.inl ⟨es, by rw [hνl, hsh]⟩
                  omega
                have s2 : memLookup σ3.mem γ
                    = memLookup
                      (memSet (σ.mem ++ [(σ.next, allocNode σ.mem bval)]) α
                        (.hobj (afs ++ [(k, .href σ.next)]))) γ :=
                  h1frame γ (by simp; omega) hnsp
                exact s2.trans s1
              cases e1 with
              | some m =>
                obtain rfl : out = (σ3, some m) := (Option.some.inj hmf).symm
                have hle3 : σ.next ≤ σ3.next := by
                  have := h1le
                  simp at this
                  omega
                exact ⟨hle3, h1inv, hcomp, hsmall⟩
              | none =>
                have hle3 : σ.next ≤ σ3.next := by
                  have := h1le
                  simp at this
                  omega
                obtain ⟨h2le, h2inv, h2ext, h2frame⟩ :=
                  ih σ3 α out hmf h1inv (by omega)
                    (fun p hp => hvalRefLT_mono (hrest p hp) hle3)
                refine ⟨le_trans hle3 h2le, h2inv,
                  hext_compose hle3 hcomp h2ext, ?_⟩
                intro γ hγ hsp
                have s12 := hsmall γ hγ hsp
                have hsp3 : ¬ SpineN σ3.mem α γ := fun hs =>
                  hsp (spine_ext (memRefsLT_of_inv hσ) hcomp hs hα hγ)
                have s3 := h2frame γ (by omega) hsp3
                exact s3.trans s12

/-- When either side fails the `typeof`/Date guard, `mergeH` is a no-op. -/
theorem mergeH_guard {f : Nat} {σ : Store} {a b : HVal}
    (h : (!stepOk a || !stepOk b) = true) :
    mergeH (f + 1) σ a b = some (σ, none) := by
  cases a <;> cases b <;> simp [stepOk] at h ⊢ <;>
    simp [mergeH, stepOk]

/-- The frame property of `mergeH` holds at every fuel. -/
theorem mergeH_frame : ∀ f, MergeFrameH f := by
  intro f
  induction f with
  | zero =>
    intro σ a b out hm
    rw [mergeH] at hm
    cases hm
  | succ f ihf =>
    intro σ a b out hm hσ hra hrb
    cases a with
    | hnum n =>
      rw [mergeH_guard (by simp [stepOk])] at hm
      obtain rfl : out = (σ, none) := (Option.some.inj hm).symm
      exact frame_trivial hσ none _
    | hstr sv =>
      rw [mergeH_guard (by simp [stepOk])] at hm
      obtain rfl : out = (σ, none) := (Option.some.inj hm).symm
      exact frame_trivial hσ none _
    | hbool bv =>
      rw [mergeH_guard (by simp [stepOk])] at hm
      obtain rfl : out = (σ, none) := (Option.some.inj hm).symm
      exact frame_trivial hσ none _
    | hundefined =>
      rw [mergeH_guard (by simp [stepOk])] at hm
      obtain rfl : out = (σ, none) := (Option.some.inj hm).symm
      exact frame_trivial hσ none _
    | hdate t =>
      rw [mergeH_guard (by simp [stepOk])] at hm
      obtain rfl : out = (σ, none) := (Option.some.inj hm).symm
      exact frame_trivial hσ none _
    | hfun i =>
      rw [mergeH_guard (by simp [stepOk])] at hm
      obtain rfl : out = (σ, none) := (Option.some.inj hm).symm
      exact frame_trivial hσ none _
    | hnull =>
      cases b with
      | href β =>
        cases hβl : memLookup σ.mem β with
        | none =>
          simp only [mergeH, stepOk, hβl] at hm
          obtain rfl : out = (σ, none) := (Option.some.inj hm).symm
          exact frame_trivial hσ none _
        | some ndb =>
          cases ndb with
          | hobj bfs =>
            simp only [mergeH, stepOk, hβl] at hm
            by_cases hemp : bfs.isEmpty
            · rw [if_pos hemp] at hm
              obtain rfl : out = (σ, none) := (Option.some.inj hm).symm
              exact frame_trivial hσ none _
            · rw [if_neg hemp] at hm
              obtain rfl : out = (σ, some msgNullObject) :=
                (Option.some.inj hm).symm
              exact frame_trivial hσ (some msgNullObject) _
          | harr bes =>
            simp only [mergeH, stepOk, hβl] at hm
            by_cases hemp : bes.isEmpty
            · rw [if_pos hemp] at hm
              obtain rfl : out = (σ, none) := (Option.some.inj hm).symm
              exact frame_trivial hσ none _
            · rw [if_neg hemp] at hm
              obtain rfl : out = (σ, some msgNullObject) :=
                (Option.some.inj hm).symm
              exact frame_trivial hσ (some msgNullObject) _
      | hnull =>
        simp only [mergeH, stepOk] at hm
        obtain rfl : out = (σ, some msgNullObject) :=
          (Option.some.inj hm).symm
        exact frame_trivial hσ (some msgNullObject) _
      | hnum n =>
        rw [mergeH_guard (by simp [stepOk])] at hm
        obtain rfl : out = (σ, none) := (Option.some.inj hm).symm
        exact frame_trivial hσ none _
      | hstr sv =>
        rw [mergeH_guard (by simp [stepOk])] at hm
        obtain rfl : out = (σ, none) := (Option.some.inj hm).symm
        exact frame_trivial hσ none _
      | hbool bv =>
        rw [mergeH_guard (by simp [stepOk])] at hm
        obtain rfl : out = (σ, none) := (Option.some.inj hm).symm
        exact frame_trivial hσ none _
      | hundefined =>
        rw [mergeH_guard (by simp [stepOk])] at hm
        obtain rfl : out = (σ, none) := (Option.some.inj hm).symm
        exact frame_trivial hσ none _
      | hdate t =>
        rw [mergeH_guard (by simp [stepOk])] at hm
        obtain rfl : out = (σ, none) := (Option.some.inj hm).symm
        exact frame_trivial hσ none _
      | hfun i =>
        rw [mergeH_guard (by simp [stepOk])] at hm
        obtain rfl : out = (σ, none) := (Option.some.inj hm).symm
        exact frame_trivial hσ none _
    | href α =>
      have hα : α < σ.next := by simpa [hvalRefLT] using hra
      cases b with
      | hnum n =>
        rw [mergeH_guard (by simp [stepOk])] at hm
        obtain rfl : out = (σ, none) := (Option.some.inj hm).symm
        exact frame_trivial hσ none _
      | hstr sv =>
        rw [mergeH_guard (by simp [stepOk])] at hm
        obtain rfl : out = (σ, none) := (Option.some.inj hm).symm
        exact frame_trivial hσ none _
      | hbool bv =>
        rw [mergeH_guard (by simp [stepOk])] at hm
        obtain rfl : out = (σ, none) := (Option.some.inj hm).symm
        exact frame_trivial hσ none _
      | hundefined =>
        rw [mergeH_guard (by simp [stepOk])] at hm
        obtain rfl : out = (σ, none) := (Option.some.inj hm).symm
        exact frame_trivial hσ none _
      | hdate t =>
        rw [mergeH_guard (by simp [stepOk])] at hm
        obtain rfl : out = (σ, none) := (Option.some.inj hm).symm
        exact frame_trivial hσ none _
      | hfun i =>
        rw [mergeH_guard (by simp [stepOk])] at hm
        obtain rfl : out = (σ, none) := (Option.some.inj hm).symm
        exact frame_trivial hσ none _
      | hnull =>
        cases hαl : memLookup σ.mem α with
        | none =>
          simp only [mergeH, stepOk, hαl] at hm
          obtain rfl : out = (σ, none) := (Option.some.inj hm).symm
          exact frame_trivial hσ none _
        | some nd =>
          cases nd with
          | harr ea =>
            simp only [mergeH, stepOk, hαl] at hm
            obtain rfl : out = (σ, none) := (Option.some.inj hm).symm
            exact frame_trivial hσ none _
          | hobj afs =>
            simp only [mergeH, stepOk, hαl] at hm
            obtain rfl : out = (σ, some msgNullObject) :=
              (Option.some.inj hm).symm
            exact frame_trivial hσ (some msgNullObject) _
      | href β =>
        cases hαl : memLookup σ.mem α with
        | none =>
          simp only [mergeH, stepOk, hαl] at hm
          obtain rfl : out = (σ, none) := (Option.some.inj hm).symm
          exact frame_trivial hσ none _
        | some nd =>
          cases nd with
          | harr ea =>
            cases hβl : memLookup σ.mem β with
            | none =>
              simp only [mergeH, stepOk, hαl, hβl] at hm
              obtain rfl : out = (σ, none) := (Option.some.inj hm).symm
              exact frame_trivial hσ none _
            | some ndb =>
              cases ndb with
              | hobj bfs =>
                simp only [mergeH, stepOk, hαl, hβl] at hm
                obtain rfl : out = (σ, none) := (Option.some.inj hm).symm
                exact frame_trivial hσ none _
              | harr eb =>
                simp only [mergeH, stepOk, hαl, hβl] at hm
                obtain rfl :
                    out = (⟨memSet σ.mem α (.harr (ea ++ eb)), σ.next⟩,
                      none) := (Option.some.inj hm).symm
                have hrefs : nodeRefsLT (.harr (ea ++ eb)) σ.next = true :=
                  nodeRefsLT_arr_append (storeInv_lookup hσ hαl).2
                    (storeInv_lookup hσ hβl).2
                refine ⟨le_refl _, storeInv_memSet hσ hαl hrefs,
                  hext_set_arr
                    (hext_refl (fun _ hδ => storeInv_none hσ hδ)) hαl, ?_⟩
                intro γ hγ hsp
                have hγα : γ ≠ α := fun h => hsp (h ▸ SpineN.refl γ)
                exact memLookup_memSet_ne hγα
          | hobj afs =>
            cases hβl : memLookup σ.mem β with
            | none =>
              simp only [mergeH, stepOk, hαl, hβl] at hm
              obtain rfl : out = (σ, none) := (Option.some.inj hm).symm
              exact frame_trivial hσ none _
            | some ndb =>
              cases ndb with
              | hobj bfs =>
                simp only [mergeH, stepOk, hαl, hβl] at hm
                have hrefs : ∀ p ∈ bfs, hvalRefLT p.2 σ.next = true :=
                  fun p hp =>
                    nodeRefsLT_field (storeInv_lookup hσ hβl).2
                      (by exact hp)
                exact fields_frame ihf bfs σ α out hm hσ hα hrefs
              | harr bes =>
                simp only [mergeH, stepOk, hαl, hβl] at hm
                have hrefs : ∀ p ∈ idxPairsH 0 bes,
                    hvalRefLT p.2 σ.next = true := by
                  intro p hp
                  obtain ⟨k, v⟩ := p
                  exact nodeRefsLT_elem (storeInv_lookup hσ hβl).2
                    (idxPairsH_mem hp)
                exact fields_frame ihf (idxPairsH 0 bes) σ α out hm hσ hα
                  hrefs

/-- Reachable addresses of a well-referenced value lie below `next`. -/
theorem reach_lt {σ : Store} (hσ : StoreInv σ) :
    ∀ {β γ : Nat}, ReachN σ.mem β γ → β < σ.next → γ < σ.next := by
  intro β γ h
  induction h with
  | refl => exact id
  | @stepObj α' β' γ' fs k hlook hmem htail ih =>
    intro hβ
    have := nodeRefsLT_field (storeInv_lookup hσ hlook).2 hmem
    simp [hvalRefLT] at this
    exact ih this
  | @stepArr α' β' γ' es hlook hmem htail ih =>
    intro hβ
    have := nodeRefsLT_elem (storeInv_lookup hσ hlook).2 hmem
    simp [hvalRefLT] at this
    exact ih this

/-- Counterexample to C10 as stated: `_merge` can mutate its second
argument.  Merging an array with itself (target and source are the same
object) doubles the array in place, so the source is structurally
changed. -/
theorem merge_mutates_source_counterexample :
    mergeH 1 ⟨[(0, .harr [.hnum 1])], 1⟩ (.href 0) (.href 0)
      = some (⟨[(0, .harr [.hnum 1, .hnum 1])], 1⟩, none) ∧
    memLookup [(0, HNode.harr [.hnum 1, .hnum 1])] 0
      ≠ memLookup [(0, HNode.harr [.hnum 1])] 0 := by
  constructor
  · simp [mergeH, memLookup, memSet, stepOk]
  · simp [memLookup]

/-- C10 (amended): `_merge` leaves its second argument structurally
unchanged provided the source shares no structure with the target's write
spine — every address reachable from the source (through any mix of
object fields and array elements) holds the same node after the merge as
before.  Without the disjointness proviso the claim fails: under aliasing
the merge writes into structure reachable from the source. -/
theorem merge_frame_disjoint (fuel : Nat) (σ : Store) (a b : HVal)
    (σ2 : Store) (e : Option String)
    (hm : mergeH fuel σ a b = some (σ2, e)) (hσ : StoreInv σ)
    (hra : hvalRefLT a σ.next = true) (hrb : hvalRefLT b σ.next = true)
    (hdisj : ∀ γ, ReachV σ.mem b γ → ¬ SpineV σ.mem a γ) :
    ∀ γ, ReachV σ.mem b γ → memLookup σ2.mem γ = memLookup σ.mem γ := by
  intro γ hγ
  obtain ⟨hle, hinv, hext, hframe⟩ := mergeH_frame fuel σ a b (σ2, e) hm hσ
    hra hrb
  have hγlt : γ < σ.next := by
    cases b with
    | href β =>
      have hβ : β < σ.next := by simpa [hvalRefLT] using hrb
      exact reach_lt hσ hγ hβ
    | hnull => cases hγ
    | hnum n => cases hγ
    | hstr sv => cases hγ
    | hbool bv => cases hγ
    | hundefined => cases hγ
    | hdate t => cases hγ
    | hfun i => cases hγ
  exact hframe γ hγlt (hdisj γ hγ)

/-- Witness for the amended C10: a disjoint source object is untouched by
the merge that copies its field into the target. -/
theorem merge_frame_disjoint_witness :
    mergeH 2 ⟨[(0, .hobj []), (1, .hobj [("k", .hnum 2)])], 2⟩
        (.href 0) (.href 1)
      = some (⟨[(0, .hobj [("k", .hnum 2)]), (1, .hobj [("k", .hnum 2)])],
          2⟩, none) ∧
    StoreInv ⟨[(0, .hobj []), (1, .hobj [("k", .hnum 2)])], 2⟩ ∧
    memLookup [(0, HNode.hobj [("k", .hnum 2)]),
        (1, HNode.hobj [("k", .hnum 2)])] 1
      = memLookup [(0, HNode.hobj []), (1, HNode.hobj [("k", .hnum 2)])] 1 := by
  have hm : mergeH 2 ⟨[(0, .hobj []), (1, .hobj [("k", .hnum 2)])], 2⟩
      (.href 0) (.href 1)
      = some (⟨[(0, .hobj [("k", .hnum 2)]), (1, .hobj [("k", .hnum 2)])],
          2⟩, none) := by
    simp [mergeH, mergeHFields, memLookup, memSet, fLookup, stepOk,
      allocNode]
  have hreach1 : ∀ γ,
      ReachV ([(0, HNode.hobj []), (1, HNode.hobj [("k", .hnum 2)])] : HMem)
        (.href 1) γ → γ = 1 := by
    intro γ hγ
    cases hγ with
    | refl => rfl
    | stepObj hlook hmem htail =>
      simp [memLookup] at hlook
      rw [← hlook] at hmem
      simp at hmem
    | stepArr hlook hmem htail =>
      simp [memLookup] at hlook
  have hdisj : ∀ γ,
      ReachV ([(0, HNode.hobj []), (1, HNode.hobj [("k", .hnum 2)])] : HMem)
        (.href 1) γ →
      ¬ SpineV ([(0, HNode.hobj []), (1, HNode.hobj [("k", .hnum 2)])] : HMem)
        (.href 0) γ := by
    intro γ hγ hs
    obtain rfl : γ = 1 := hreach1 γ hγ
    cases hs with
    | step hlook hmem htail =>
      simp [memLookup] at hlook
      rw [hlook] at hmem
      simp at hmem
  refine ⟨hm, by decide, ?_⟩
  have := merge_frame_disjoint 2
    ⟨[(0, .hobj []), (1, .hobj [("k", .hnum 2)])], 2⟩
    (.href 0) (.href 1)
    ⟨[(0, .hobj [("k", .hnum 2)]), (1, .hobj [("k", .hnum 2)])], 2⟩ none
    hm (by decide) (by decide) (by decide) hdisj 1 (ReachN.refl 1)
  exact this
